import Mathlib

/-!
# MapReduce coordinator (`my_mapreduce.go`)

A shallow embedding of the Go program: the two built-in task functions
(`mapFunc`, `reduceFunc`), the `Master` record, `NewMaster` and `Master.Run`.

Modelling decisions.

* Go strings are modelled by `String` (valid UTF-8 text); only equality of
  keys and the whitespace test of `strings.Fields` look at their contents.
* A Go `map[string]V` is modelled by `GoMap V`, an association list that keeps
  its entries in insertion order; `m[k]` is `GoMap.get`, `m[k] = v` is
  `GoMap.set`.  Ranging over a Go map visits the entries in an unspecified
  order: every `range` over a map takes the visiting order from a `Sched`,
  which may be any permutation of the entries.
* The map phase starts one goroutine per input; each appends its pairs to
  `m.intermediate` while holding `m.mu`, so an append is atomic and the
  appends of the tasks happen in some total order.  `m.wg.Wait()` returns
  after all of them.  The order is the `mapOrd` component of the `Sched`.
  The section "The map phase step by step" models the goroutines, the lock and
  the wait group one statement at a time; `exec_refines_Run` shows that every
  completed interleaving returns what `Run` returns under some valid schedule.
* `Run` also records the arguments of every call to `mapF` and `reduceF`
  (ghost fields `mapCalls`, `reduceCalls`; the calls of `mapF` are listed in the
  order of the appends that follow them) and the local `groups`.
* `mapF` and `reduceF` are total functions of their arguments in `Run` and in
  the step-by-step model; the section "Task functions that may fault" repeats
  the step-by-step model for task functions whose calls may panic.  Task
  functions that read other state are outside this development.
* The Input Set is a Go map, so its identifiers are pairwise distinct; the
  theorems below hold for every association list, with or without that.
* `count` in `reduceFunc` is a Go `int`; it never exceeds `len(values)`,
  which is below `2^63`, so it is modelled by `Nat` without wrap-around.
-/

namespace MapReduce

/-! ## Data model -/

/-- KeyValue: `type KeyValue struct { Key string; Value string }`. -/
structure KeyValue where
  Key : String
  Value : String
deriving DecidableEq, Repr

/-- MapFunc: `type MapFunc func(string, string) []KeyValue`. -/
abbrev MapFunc := String → String → List KeyValue

/-- ReduceFunc: `type ReduceFunc func(string, []string) string`. -/
abbrev ReduceFunc := String → List String → String

/-- A Go map with string keys, as an association list in insertion order. -/
abbrev GoMap (V : Type) := List (String × V)

/-- The keys of a Go map, in insertion order. -/
def GoMap.keys {V : Type} (m : GoMap V) : List String := m.map Prod.fst

/-- The two-result read `v, ok := m[k]`. -/
def GoMap.lookup {V : Type} : GoMap V → String → Option V
  | [], _ => none
  | (k', v) :: t, k => if k' = k then some v else GoMap.lookup t k

/-- The read `m[k]` of a map of slices: the zero value `nil` when `k` is absent. -/
def GoMap.get {V : Type} (m : GoMap (List V)) (k : String) : List V :=
  (GoMap.lookup m k).getD []

/-- The assignment `m[k] = v`: overwrite the entry of `k`, or add one. -/
def GoMap.set {V : Type} : GoMap V → String → V → GoMap V
  | [], k, v => [(k, v)]
  | (k', v') :: t, k, v => if k' = k then (k, v) :: t else (k', v') :: GoMap.set t k v

/-! ## The built-in task functions -/

/-- The predicate `unicode.IsSpace`, which `strings.Fields` splits on. -/
def isSpace (c : Char) : Bool :=
  let n := c.toNat
  (9 ≤ n && n ≤ 13) || n == 32 || n == 0x85 || n == 0xA0 || n == 0x1680 ||
  (0x2000 ≤ n && n ≤ 0x200A) || n == 0x2028 || n == 0x2029 || n == 0x202F ||
  n == 0x205F || n == 0x3000

/-- The scan of `strings.Fields`: `cur` is the field being read (empty between fields). -/
def fieldsAux : List Char → List Char → List String
  | [], cur => if cur.isEmpty then [] else [String.mk cur]
  | c :: cs, cur =>
    if isSpace c then
      if cur.isEmpty then fieldsAux cs [] else String.mk cur :: fieldsAux cs []
    else fieldsAux cs (cur ++ [c])

/-- The library function `strings.Fields`: the maximal runs of non-space characters. -/
def Fields (s : String) : List String := fieldsAux s.data []

/-- The built-in `mapFunc`: one pair `(w, "1")` per word of `contents`. -/
def mapFunc (_filename : String) (contents : String) : List KeyValue :=
  (Fields contents).foldl (fun kva w => kva ++ [KeyValue.mk w "1"]) []

/-- The built-in `reduceFunc`: `count += 1` per entry, then `fmt.Sprintf("%d", count)`. -/
def reduceFunc (_key : String) (values : List String) : String :=
  Nat.repr (values.foldl (fun count _ => count + 1) 0)

/-! ## Master -/

/-- Master: the fields of `type Master struct`; `mu` and `wg` carry no data. -/
structure Master where
  mapF : MapFunc
  reduceF : ReduceFunc
  files : GoMap String
  intermediate : List KeyValue

/-- NewMaster: `intermediate` gets its zero value, the nil slice. -/
def NewMaster (files : GoMap String) (mapF : MapFunc) (reduceF : ReduceFunc) : Master :=
  Master.mk mapF reduceF files []

/-- The visiting orders left open by Go: the order in which the map tasks
append, and the order in which `range groups` visits the grouped keys. -/
structure Sched where
  mapOrd : GoMap String → GoMap String
  redOrd : GoMap (List String) → GoMap (List String)

/-- A schedule is valid when each order visits every entry exactly once. -/
def Sched.Valid (s : Sched) : Prop :=
  (∀ l, (s.mapOrd l).Perm l) ∧ (∀ l, (s.redOrd l).Perm l)

/-- The schedule that visits in insertion order. -/
def Sched.inOrder : Sched := Sched.mk id id

/-- The schedule that visits in reverse insertion order. -/
def Sched.reversed : Sched := Sched.mk List.reverse List.reverse

/-- One map task (lines 62-68): call `mapF`, then append all its pairs under the lock.
The second component logs the call. -/
def mapTask (mapF : MapFunc) (st : List KeyValue × List (String × String))
    (e : String × String) : List KeyValue × List (String × String) :=
  let kva := mapF e.1 e.2
  (st.1 ++ kva, st.2 ++ [e])

/-- The map phase (lines 60-70): the tasks append in the order `order`. -/
def mapPhase (m : Master) (order : List (String × String)) :
    List KeyValue × List (String × String) :=
  order.foldl (mapTask m.mapF) (m.intermediate, [])

/-- The group step (lines 73-76): `groups[kv.Key] = append(groups[kv.Key], kv.Value)`. -/
def groupPhase (intermediate : List KeyValue) : GoMap (List String) :=
  intermediate.foldl
    (fun groups kv => GoMap.set groups kv.Key (GoMap.get groups kv.Key ++ [kv.Value])) []

/-- One iteration of the reduce loop (line 81): `result[key] = m.reduceF(key, values)`.
The second component logs the call. -/
def reduceStep (reduceF : ReduceFunc) (st : GoMap String × List (String × List String))
    (e : String × List String) : GoMap String × List (String × List String) :=
  (GoMap.set st.1 e.1 (reduceF e.1 e.2), st.2 ++ [e])

/-- The reduce phase (lines 79-82), visiting the grouped entries in the order `order`. -/
def reducePhase (reduceF : ReduceFunc) (order : List (String × List String)) :
    GoMap String × List (String × List String) :=
  order.foldl (reduceStep reduceF) ([], [])

/-- What one call of `Run` produces: the returned map, the Master afterwards,
the local `groups`, and the logged calls of `mapF` and `reduceF`. -/
structure RunOut where
  result : GoMap String
  master : Master
  groups : GoMap (List String)
  mapCalls : List (String × String)
  reduceCalls : List (String × List String)

/-- Run: `func (m *Master) Run() map[string]string` under the schedule `s`. -/
def Run (m : Master) (s : Sched) : RunOut :=
  let mp := mapPhase m (s.mapOrd m.files)
  let groups := groupPhase mp.1
  let rp := reducePhase m.reduceF (s.redOrd groups)
  RunOut.mk rp.1 (Master.mk m.mapF m.reduceF m.files mp.1) groups mp.2 rp.2

/-- The values of the pairs of `buf` whose key is `k`, in buffer order. -/
def valuesOf (k : String) (buf : List KeyValue) : List String :=
  (buf.filter (fun kv => kv.Key = k)).map KeyValue.Value

/-- All pairs emitted by the map invocations, input by input. -/
def emitted (mapF : MapFunc) (files : GoMap String) : List KeyValue :=
  files.flatMap (fun e => mapF e.1 e.2)

/-- The number of times `w` occurs as a whitespace-separated word, over all inputs. -/
def occurrences (files : GoMap String) (w : String) : Nat :=
  (files.map (fun e => (Fields e.2).count w)).sum

/-- A map function that emits its whole input under the one key `"k"`. -/
def emitContent : MapFunc := fun _ contents => [KeyValue.mk "k" contents]

/-- A reduce function that returns the first value of the sequence. -/
def firstValue : ReduceFunc := fun _ values => values.headD ""

/-- A map function that never emits a pair. -/
def emitNothing : MapFunc := fun _ _ => []

/-- The whitespace-separated words of a text, as the specification speaks of them: the
pieces between whitespace characters, in order, empty pieces dropped. -/
def wordsOf (contents : String) : List String :=
  ((contents.data.splitOnP isSpace).filter (fun w => !w.isEmpty)).map String.mk

/-- The base-10 numeral of a number, as the specification speaks of it: its decimal
digits, most significant first, and "0" for zero. -/
def decimal (n : Nat) : String :=
  if n = 0 then "0" else String.mk ((Nat.digits 10 n).reverse.map Nat.digitChar)

/-- A schedule whose map tasks append in the order `order` when the inputs are `files`. -/
def Sched.ofOrder (files order : GoMap String) : Sched :=
  Sched.mk (fun l => if l = files then order else l) id

/-! ## The map phase step by step

`Run` above takes the order of the appends from a schedule.  The definitions of this
section follow lines 60-70 statement by statement instead: the main goroutine and the
goroutines of the map tasks each take one step at a time, in any interleaving, with the
counter of `m.wg` and the lock `m.mu` as state.  The append of line 66 is two steps, the
read of `m.intermediate` and the store of the longer slice. -/

/-- Where the goroutine of one map task (lines 62-68) stands; each value names the
statement the goroutine executes next. -/
inductive TaskPc where
  | start
  | computed
  | locked
  | loaded
  | stored
  | unlocked
  | finished
deriving DecidableEq, Repr

/-- The goroutine is between `m.mu.Lock()` and `m.mu.Unlock()`. -/
def TaskPc.inCS : TaskPc → Bool
  | .locked => true
  | .loaded => true
  | .stored => true
  | _ => false

/-- The goroutine has stored its append into `m.intermediate`. -/
def TaskPc.wrote : TaskPc → Bool
  | .stored => true
  | .unlocked => true
  | .finished => true
  | _ => false

/-- The goroutine has not yet called the deferred `m.wg.Done()`. -/
def TaskPc.live : TaskPc → Bool
  | .finished => false
  | _ => true

/-- One map task: its arguments, where it stands, its local `kva`, and the value of
`m.intermediate` that `append` has read. -/
structure Task where
  entry : String × String
  pc : TaskPc
  kva : List KeyValue
  tmp : List KeyValue
deriving DecidableEq, Repr

/-- Where the goroutine that called `Run` stands: in the loop of lines 60-69 or blocked
in `m.wg.Wait()`; past `m.wg.Wait()`; past the group step; returned. -/
inductive MainPc where
  | mapping
  | passed
  | grouped
  | returned
deriving DecidableEq, Repr

/-- The state of a Run in progress. `pending` are the entries the `range` loop has not
visited yet, `spawning` the entry for which `m.wg.Add(1)` is done and the `go` statement
is next, `wg` the counter of `m.wg`, `mu` whether `m.mu` is held. `appended` is a ghost
field: the entries whose task has stored its append, in the order of the stores. -/
structure Conc where
  mainPc : MainPc
  pending : GoMap String
  spawning : Option (String × String)
  tasks : List Task
  wg : Int
  mu : Bool
  intermediate : List KeyValue
  appended : GoMap String
  groups : GoMap (List String)
  result : GoMap String
deriving DecidableEq, Repr

/-- One step of one goroutine. `add i`: the loop takes the `i`-th entry not yet visited
and calls `m.wg.Add(1)`; `go`: the `go` statement; `wait`: `m.wg.Wait()` returns;
`group`: lines 73-76; `reduce order`: lines 79-84, `range groups` visiting in the order
`order`; `task i`: the `i`-th goroutine executes its next statement. -/
inductive Move where
  | add (i : Nat)
  | go
  | wait
  | group
  | reduce (order : GoMap (List String))
  | task (i : Nat)
deriving DecidableEq, Repr

/-- The state when `Run` is entered on the Master `m`. -/
def Conc.init (m : Master) : Conc :=
  { mainPc := .mapping, pending := m.files, spawning := none, tasks := [], wg := 0,
    mu := false, intermediate := m.intermediate, appended := [], groups := [], result := [] }

/-- The next statement of the goroutine `t`, which is the `i`-th task; `none` when the
goroutine is blocked in `m.mu.Lock()` or has ended. -/
def stepTask (mapF : MapFunc) (c : Conc) (i : Nat) (t : Task) : Option Conc :=
  match t.pc with
  | .start =>
    some { c with tasks := c.tasks.set i { t with pc := .computed, kva := mapF t.entry.1 t.entry.2 } }
  | .computed =>
    if c.mu then none
    else some { c with mu := true, tasks := c.tasks.set i { t with pc := .locked } }
  | .locked =>
    some { c with tasks := c.tasks.set i { t with pc := .loaded, tmp := c.intermediate } }
  | .loaded =>
    some { c with intermediate := t.tmp ++ t.kva, appended := c.appended ++ [t.entry],
                  tasks := c.tasks.set i { t with pc := .stored } }
  | .stored =>
    some { c with mu := false, tasks := c.tasks.set i { t with pc := .unlocked } }
  | .unlocked =>
    some { c with wg := c.wg - 1, tasks := c.tasks.set i { t with pc := .finished } }
  | .finished => none

/-- One step of `Run`; `none` when the move is not enabled in the state `c`. -/
def step (mapF : MapFunc) (reduceF : ReduceFunc) (c : Conc) : Move → Option Conc
  | .add i =>
    if c.mainPc = .mapping ∧ c.spawning = none then
      match c.pending[i]? with
      | some e => some { c with pending := c.pending.eraseIdx i, spawning := some e,
                                wg := c.wg + 1 }
      | none => none
    else none
  | .go =>
    if c.mainPc = .mapping then
      match c.spawning with
      | some e => some { c with spawning := none, tasks := c.tasks ++ [Task.mk e .start [] []] }
      | none => none
    else none
  | .wait =>
    if c.mainPc = .mapping ∧ c.pending = [] ∧ c.spawning = none ∧ c.wg = 0 then
      some { c with mainPc := .passed }
    else none
  | .group =>
    if c.mainPc = .passed then
      some { c with mainPc := .grouped, groups := groupPhase c.intermediate }
    else none
  | .reduce order =>
    if c.mainPc = .grouped ∧ order.Perm c.groups then
      some { c with mainPc := .returned, result := (reducePhase reduceF order).1 }
    else none
  | .task i =>
    match c.tasks[i]? with
    | some t => stepTask mapF c i t
    | none => none

/-- The state after the moves `moves`, one after the other; `none` when one of them is
not enabled. -/
def exec (mapF : MapFunc) (reduceF : ReduceFunc) : Conc → List Move → Option Conc
  | c, [] => some c
  | c, mv :: rest =>
    match step mapF reduceF c mv with
    | some c' => exec mapF reduceF c' rest
    | none => none

/-- Two inputs for the examples below. -/
def demoFiles : GoMap String := [("f1", "hello world"), ("f2", "hello go")]

/-- An interleaving of the map phase for `demoFiles`: the loop visits `f2` first and
starts its goroutine, which calls `mapF` and takes the lock before the goroutine of `f1`
is started; each goroutine appends and calls `Done`; then `m.wg.Wait()` returns. -/
def demoMapMoves : List Move :=
  [.add 1, .go, .task 0, .add 0, .task 0, .go, .task 1, .task 0, .task 0, .task 0,
   .task 1, .task 0, .task 1, .task 1, .task 1, .task 1, .wait]

/-- The state `demoMapMoves` leads to: main is past `m.wg.Wait()`. -/
def demoPassed : Conc :=
  { mainPc := .passed, pending := [], spawning := none,
    tasks := [Task.mk ("f2", "hello go") .finished
                [KeyValue.mk "hello" "1", KeyValue.mk "go" "1"] [],
              Task.mk ("f1", "hello world") .finished
                [KeyValue.mk "hello" "1", KeyValue.mk "world" "1"]
                [KeyValue.mk "hello" "1", KeyValue.mk "go" "1"]],
    wg := 0, mu := false,
    intermediate := [KeyValue.mk "hello" "1", KeyValue.mk "go" "1",
                     KeyValue.mk "hello" "1", KeyValue.mk "world" "1"],
    appended := [("f2", "hello go"), ("f1", "hello world")],
    groups := [], result := [] }

/-- The state after the group step in `demoPassed`. -/
def demoGrouped : Conc :=
  { demoPassed with mainPc := .grouped,
                    groups := [("hello", ["1", "1"]), ("go", ["1"]), ("world", ["1"])] }

/-- A complete interleaving for `demoFiles`: `demoMapMoves`, the group step, and the
reduce loop visiting `world`, `go`, `hello`. -/
def demoMoves : List Move :=
  demoMapMoves ++ [.group, .reduce [("world", ["1"]), ("go", ["1"]), ("hello", ["1", "1"])]]

/-- What holds in every state of a Run entered on the Master `m`: the lock is held
exactly when one task is in its critical section, and then by one task only; the counter
of `m.wg` counts the tasks that have not called `Done`, and the entry being spawned; a
task past the call of `mapF` holds its result; a task that has read the buffer holds the
current buffer; the buffer is the old buffer followed by the outputs of the tasks that
have stored, in store order; every input is pending, being spawned or a task; and once
main is past `m.wg.Wait()` every input has a task and every task has finished. -/
structure Inv (m : Master) (c : Conc) : Prop where
  cs : (c.tasks.filter (fun t => t.pc.inCS)).length = if c.mu then 1 else 0
  cnt : c.wg = ((c.tasks.filter (fun t => t.pc.live)).length : Int) +
    (if c.spawning.isSome then 1 else 0)
  kva : ∀ t ∈ c.tasks, t.pc ≠ .start → t.kva = m.mapF t.entry.1 t.entry.2
  tmp : ∀ t ∈ c.tasks, t.pc = .loaded → t.tmp = c.intermediate
  buf : c.intermediate = m.intermediate ++ emitted m.mapF c.appended
  app : c.appended.Perm ((c.tasks.filter (fun t => t.pc.wrote)).map Task.entry)
  all : (c.pending ++ c.spawning.toList ++ c.tasks.map Task.entry).Perm m.files
  bar : c.mainPc ≠ .mapping →
    c.pending = [] ∧ c.spawning = none ∧ ∀ t ∈ c.tasks, t.pc = .finished

/-- What holds of the locals `groups` and `result` once main has computed them. -/
structure InvMain (m : Master) (c : Conc) : Prop where
  grp : c.mainPc = .grouped ∨ c.mainPc = .returned → c.groups = groupPhase c.intermediate
  res : c.mainPc = .returned →
    ∃ order : GoMap (List String), order.Perm c.groups ∧
      c.result = (reducePhase m.reduceF order).1

/-- A schedule whose map tasks append in the order `order` when the inputs are `files`,
and whose reduce loop visits in the order `rorder` when the grouped map is `groups`. -/
def Sched.ofOrders (files order : GoMap String) (groups rorder : GoMap (List String)) :
    Sched :=
  Sched.mk (fun l => if l = files then order else l)
    (fun l => if l = groups then rorder else l)

/-- The Master left by a first Run over the one input `f1 ↦ hello world` with the
built-in functions: its buffer holds the two pairs of that Run. -/
def usedMaster : Master :=
  (Run (NewMaster [("f1", "hello world")] mapFunc reduceFunc) Sched.inOrder).master

/-- The map phase of a Run with one input, statement by statement. -/
def usedMoves : List Move :=
  [.add 0, .go, .task 0, .task 0, .task 0, .task 0, .task 0, .task 0, .wait]

/-! ## Task functions that may fault

The definitions above take `mapF` and `reduceF` as total functions.  Here a call may
panic.  `Run` has no `recover` and no deferred call of its own, so a panic of `reduceF`
(called in the goroutine of `Run`, line 81) leaves `Run` and goes to its caller.  A panic
of `mapF` (line 64) happens in the goroutine of a map task: the deferred `m.wg.Done()` of
line 63 runs, and then, nothing having recovered, the runtime ends the program.  The
other goroutines keep taking steps until it does. -/

/-- MapFuncF: a map function whose call may panic; `none` is a panic. -/
abbrev MapFuncF := String → String → Option (List KeyValue)

/-- ReduceFuncF: a reduce function whose call may panic; `none` is a panic. -/
abbrev ReduceFuncF := String → List String → Option String

/-- MasterF: the fields of `Master`, with task functions that may panic. -/
structure MasterF where
  mapF : MapFuncF
  reduceF : ReduceFuncF
  files : GoMap String
  intermediate : List KeyValue

/-- How the program stands: `running`; `runPanicked`, a call of `reduceF` has panicked
in the goroutine of `Run` and the panic has left `Run` for its caller; `terminated`, the
runtime has ended the program because the goroutine of a map task panicked and ran out
of deferred calls. -/
inductive Fate where
  | running
  | runPanicked
  | terminated
deriving DecidableEq, Repr

/-- The state of a Run whose task functions may panic: the state `conc` of the
goroutines, the tasks whose call of `mapF` has panicked, and the fate of the program.
For a task in `panicked`, `TaskPc.unlocked` is the point where the deferred
`m.wg.Done()` is next and `TaskPc.finished` the point where it has run. -/
structure ConcF where
  conc : Conc
  panicked : List Nat
  fate : Fate
deriving DecidableEq, Repr

/-- The state when `Run` is entered on the Master `m`. -/
def ConcF.init (m : MasterF) : ConcF :=
  { conc := { mainPc := .mapping, pending := m.files, spawning := none, tasks := [],
              wg := 0, mu := false, intermediate := m.intermediate, appended := [],
              groups := [], result := [] },
    panicked := [], fate := .running }

theorem GoMap.lookup_set {V : Type} (m : GoMap V) (k k' : String) (v : V) :
    GoMap.lookup (GoMap.set m k v) k' = if k = k' then some v else GoMap.lookup m k' := by
  induction m with
  | nil => simp [GoMap.set, GoMap.lookup]
  | cons p t ih =>
    obtain ⟨a, b⟩ := p
    by_cases h : a = k
    · subst h
      by_cases h2 : a = k' <;> simp [GoMap.set, GoMap.lookup, h2]
    · by_cases h2 : a = k'
      · subst h2
        simp [GoMap.set, GoMap.lookup, h, Ne.symm h]
      · simp [GoMap.set, GoMap.lookup, h, h2, ih]

theorem GoMap.keys_set {V : Type} (m : GoMap V) (k : String) (v : V) :
    GoMap.keys (GoMap.set m k v) =
      if k ∈ GoMap.keys m then GoMap.keys m else GoMap.keys m ++ [k] := by
  induction m with
  | nil => simp [GoMap.set, GoMap.keys]
  | cons p t ih =>
    obtain ⟨a, b⟩ := p
    by_cases h : a = k
    · subst h
      simp [GoMap.set, GoMap.keys]
    · have h3 : ¬ k = a := fun e => h e.symm
      simp only [GoMap.keys] at ih
      by_cases h2 : k ∈ List.map Prod.fst t
      · simp [GoMap.set, GoMap.keys, h, h2, ih]
      · simp [GoMap.set, GoMap.keys, h, h2, h3, ih]

theorem GoMap.mem_keys_set {V : Type} (m : GoMap V) (k k' : String) (v : V) :
    k' ∈ GoMap.keys (GoMap.set m k v) ↔ k' = k ∨ k' ∈ GoMap.keys m := by
  rw [GoMap.keys_set]
  by_cases h : k ∈ GoMap.keys m
  · simp only [h, if_true]
    constructor
    · exact Or.inr
    · rintro (rfl | h2)
      · exact h
      · exact h2
  · simp only [h, if_false, List.mem_append, List.mem_singleton]
    tauto

theorem GoMap.nodup_set {V : Type} (m : GoMap V) (k : String) (v : V)
    (h : (GoMap.keys m).Nodup) : (GoMap.keys (GoMap.set m k v)).Nodup := by
  rw [GoMap.keys_set]
  by_cases hk : k ∈ GoMap.keys m
  · simpa [hk] using h
  · simp only [hk, if_false]
    rw [List.nodup_append]
    refine ⟨h, List.nodup_singleton k, ?_⟩
    intro a ha hb
    rw [List.mem_singleton] at hb
    exact hk (hb ▸ ha)

theorem GoMap.lookup_eq_none_iff {V : Type} (m : GoMap V) (k : String) :
    GoMap.lookup m k = none ↔ k ∉ GoMap.keys m := by
  induction m with
  | nil => simp [GoMap.lookup, GoMap.keys]
  | cons p t ih =>
    obtain ⟨a, b⟩ := p
    simp only [GoMap.keys] at ih
    by_cases h : a = k
    · simp [GoMap.lookup, GoMap.keys, h]
    · have h3 : ¬ k = a := fun e => h e.symm
      simp [GoMap.lookup, GoMap.keys, h, h3, ih]

theorem GoMap.lookup_eq_some_iff {V : Type} (m : GoMap V) (k : String) (v : V)
    (hnd : (GoMap.keys m).Nodup) : GoMap.lookup m k = some v ↔ (k, v) ∈ m := by
  induction m with
  | nil => simp [GoMap.lookup]
  | cons p t ih =>
    obtain ⟨a, b⟩ := p
    simp only [GoMap.keys, List.map_cons, List.nodup_cons] at hnd
    have ih2 := ih hnd.2
    by_cases h : a = k
    · subst h
      have hno : ∀ w, (a, w) ∉ t := fun w hw => hnd.1 (List.mem_map_of_mem Prod.fst hw)
      simp only [GoMap.lookup, if_true, List.mem_cons, Prod.mk.injEq, true_and, Option.some.injEq]
      constructor
      · intro e; exact Or.inl e.symm
      · rintro (e | e)
        · exact e.symm
        · exact absurd e (hno v)
    · have h3 : ¬ k = a := fun e => h e.symm
      simp [GoMap.lookup, h, h3, ih2]

theorem GoMap.mem_keys_iff {V : Type} (m : GoMap V) (k : String) :
    k ∈ GoMap.keys m ↔ ∃ v, GoMap.lookup m k = some v := by
  have h := GoMap.lookup_eq_none_iff m k
  cases hl : GoMap.lookup m k with
  | none => simp [h.mp hl]
  | some v =>
    rw [hl] at h
    simp only [reduceCtorEq, false_iff, not_not] at h
    simp [h]

/-! ## The three phases of `Run` -/

theorem foldl_mapTask (mapF : MapFunc) (order : List (String × String))
    (st : List KeyValue × List (String × String)) :
    order.foldl (mapTask mapF) st =
      (st.1 ++ order.flatMap (fun e => mapF e.1 e.2), st.2 ++ order) := by
  induction order generalizing st with
  | nil => simp
  | cons e t ih => simp [List.foldl_cons, ih, mapTask, List.flatMap_cons, List.append_assoc]

theorem mapPhase_eq (m : Master) (order : List (String × String)) :
    mapPhase m order = (m.intermediate ++ emitted m.mapF order, order) := by
  simp [mapPhase, foldl_mapTask, emitted]

theorem valuesOf_append (k : String) (a b : List KeyValue) :
    valuesOf k (a ++ b) = valuesOf k a ++ valuesOf k b := by
  simp [valuesOf, List.filter_append]

theorem valuesOf_perm (k : String) {a b : List KeyValue} (h : a.Perm b) :
    (valuesOf k a).Perm (valuesOf k b) :=
  (h.filter _).map _

theorem valuesOf_eq_nil_iff (k : String) (buf : List KeyValue) :
    valuesOf k buf = [] ↔ ∀ kv ∈ buf, kv.Key ≠ k := by
  simp [valuesOf, List.filter_eq_nil_iff]

theorem groupPhase_snoc (buf : List KeyValue) (kv : KeyValue) :
    groupPhase (buf ++ [kv]) =
      GoMap.set (groupPhase buf) kv.Key (GoMap.get (groupPhase buf) kv.Key ++ [kv.Value]) := by
  simp [groupPhase, List.foldl_append]

theorem groupPhase_nodup (buf : List KeyValue) : (GoMap.keys (groupPhase buf)).Nodup := by
  induction buf using List.reverseRecOn with
  | nil => simp [groupPhase, GoMap.keys]
  | append_singleton l a ih =>
    rw [groupPhase_snoc]
    exact GoMap.nodup_set _ _ _ ih

theorem groupPhase_lookup (buf : List KeyValue) (k : String) :
    GoMap.lookup (groupPhase buf) k =
      if valuesOf k buf = [] then none else some (valuesOf k buf) := by
  induction buf using List.reverseRecOn with
  | nil => simp [groupPhase, GoMap.lookup, valuesOf]
  | append_singleton l a ih =>
    rw [groupPhase_snoc, GoMap.lookup_set, valuesOf_append]
    by_cases h : a.Key = k
    · subst h
      have hv : valuesOf a.Key [a] = [a.Value] := by simp [valuesOf]
      have hg : GoMap.get (groupPhase l) a.Key = valuesOf a.Key l := by
        unfold GoMap.get
        rw [ih]
        by_cases h0 : valuesOf a.Key l = [] <;> simp [h0]
      simp [hv, hg]
    · have hv : valuesOf k [a] = [] := by simp [valuesOf, h]
      simp [h, hv, ih]

theorem groupPhase_get (buf : List KeyValue) (k : String) :
    GoMap.get (groupPhase buf) k = valuesOf k buf := by
  unfold GoMap.get
  rw [groupPhase_lookup]
  by_cases h0 : valuesOf k buf = [] <;> simp [h0]

theorem groupPhase_mem_keys (buf : List KeyValue) (k : String) :
    k ∈ GoMap.keys (groupPhase buf) ↔ ∃ kv ∈ buf, kv.Key = k := by
  rw [GoMap.mem_keys_iff]
  simp only [groupPhase_lookup]
  by_cases h0 : valuesOf k buf = []
  · have h1 := (valuesOf_eq_nil_iff k buf).mp h0
    simp only [h0, if_true, reduceCtorEq, exists_false, false_iff]
    rintro ⟨kv, hkv, he⟩
    exact h1 kv hkv he
  · simp only [h0, if_false, Option.some.injEq, exists_eq', true_iff]
    by_contra hne
    apply h0
    rw [valuesOf_eq_nil_iff]
    intro kv hkv he
    exact hne ⟨kv, hkv, he⟩

theorem groupPhase_mem (buf : List KeyValue) (k : String) (vs : List String) :
    (k, vs) ∈ groupPhase buf ↔ vs = valuesOf k buf ∧ vs ≠ [] := by
  rw [← GoMap.lookup_eq_some_iff _ _ _ (groupPhase_nodup buf), groupPhase_lookup]
  by_cases h0 : valuesOf k buf = []
  · simp only [h0, if_true, reduceCtorEq, false_iff, not_and, not_not]
    exact fun h => h
  · simp only [h0, if_false, Option.some.injEq]
    constructor
    · intro h; subst h; exact ⟨rfl, h0⟩
    · intro h; exact h.1.symm

theorem foldl_reduceStep_log (reduceF : ReduceFunc) (order : List (String × List String))
    (st : GoMap String × List (String × List String)) :
    (order.foldl (reduceStep reduceF) st).2 = st.2 ++ order := by
  induction order generalizing st with
  | nil => simp
  | cons e t ih => simp [List.foldl_cons, ih, reduceStep]

theorem reducePhase_log (reduceF : ReduceFunc) (order : List (String × List String)) :
    (reducePhase reduceF order).2 = order := by
  simp [reducePhase, foldl_reduceStep_log]

theorem reducePhase_snoc (reduceF : ReduceFunc) (order : List (String × List String))
    (e : String × List String) :
    (reducePhase reduceF (order ++ [e])).1 =
      GoMap.set (reducePhase reduceF order).1 e.1 (reduceF e.1 e.2) := by
  simp [reducePhase, List.foldl_append, reduceStep]

theorem reducePhase_keys_nodup (reduceF : ReduceFunc) (order : List (String × List String)) :
    (GoMap.keys (reducePhase reduceF order).1).Nodup := by
  induction order using List.reverseRecOn with
  | nil => simp [reducePhase, GoMap.keys]
  | append_singleton l a ih =>
    rw [reducePhase_snoc]
    exact GoMap.nodup_set _ _ _ ih

theorem reducePhase_mem_keys (reduceF : ReduceFunc) (order : List (String × List String))
    (k : String) :
    k ∈ GoMap.keys (reducePhase reduceF order).1 ↔ k ∈ GoMap.keys order := by
  induction order using List.reverseRecOn with
  | nil => simp [reducePhase, GoMap.keys]
  | append_singleton l a ih =>
    rw [reducePhase_snoc, GoMap.mem_keys_set, ih]
    simp only [GoMap.keys, List.map_append, List.map_cons, List.map_nil, List.mem_append,
      List.mem_singleton]
    tauto

theorem reducePhase_lookup (reduceF : ReduceFunc) (order : List (String × List String))
    (hnd : (GoMap.keys order).Nodup) (k v : String) :
    GoMap.lookup (reducePhase reduceF order).1 k = some v ↔
      ∃ vs, (k, vs) ∈ order ∧ v = reduceF k vs := by
  induction order using List.reverseRecOn with
  | nil => simp [reducePhase, GoMap.lookup]
  | append_singleton l a ih =>
    obtain ⟨ak, avs⟩ := a
    have hnd2 : (GoMap.keys l).Nodup ∧ ak ∉ GoMap.keys l := by
      simp only [GoMap.keys, List.map_append, List.map_cons, List.map_nil] at hnd
      rw [List.nodup_append] at hnd
      refine ⟨hnd.1, fun hm => hnd.2.2 hm (List.mem_singleton_self ak)⟩
    rw [reducePhase_snoc, GoMap.lookup_set]
    by_cases h : ak = k
    · subst h
      simp only [if_true, Option.some.injEq, List.mem_append, List.mem_singleton, Prod.mk.injEq,
        true_and]
      constructor
      · intro e; exact ⟨avs, Or.inr rfl, e.symm⟩
      · rintro ⟨vs, hm | hm, e⟩
        · exact absurd (List.mem_map_of_mem Prod.fst hm) hnd2.2
        · rw [e, hm]
    · simp only [h, if_false, ih hnd2.1, List.mem_append, List.mem_singleton, Prod.mk.injEq]
      constructor
      · rintro ⟨vs, hm, e⟩; exact ⟨vs, Or.inl hm, e⟩
      · rintro ⟨vs, hm | hm, e⟩
        · exact ⟨vs, hm, e⟩
        · exact absurd hm.1.symm h

/-! ## `Run` as a whole -/

theorem Sched.valid_inOrder : Sched.Valid Sched.inOrder :=
  ⟨fun l => List.Perm.refl l, fun l => List.Perm.refl l⟩

theorem Sched.valid_reversed : Sched.Valid Sched.reversed :=
  ⟨fun l => List.reverse_perm l, fun l => List.reverse_perm l⟩

theorem Run_intermediate (m : Master) (s : Sched) :
    (Run m s).master.intermediate = m.intermediate ++ emitted m.mapF (s.mapOrd m.files) := by
  simp [Run, mapPhase_eq]

theorem Run_groups (m : Master) (s : Sched) :
    (Run m s).groups = groupPhase (Run m s).master.intermediate := rfl

theorem Run_mapCalls (m : Master) (s : Sched) : (Run m s).mapCalls = s.mapOrd m.files := by
  simp [Run, mapPhase_eq]

theorem Run_reduceCalls (m : Master) (s : Sched) :
    (Run m s).reduceCalls = s.redOrd (Run m s).groups := by
  simp [Run, reducePhase_log]

theorem Run_result (m : Master) (s : Sched) :
    (Run m s).result = (reducePhase m.reduceF (s.redOrd (Run m s).groups)).1 := rfl

theorem Run_reduceCalls_nodup (m : Master) (s : Sched) (hs : s.Valid) :
    (GoMap.keys (Run m s).reduceCalls).Nodup := by
  rw [Run_reduceCalls, Run_groups]
  exact ((hs.2 _).map Prod.fst).nodup_iff.mpr (groupPhase_nodup _)

theorem Run_reduceCalls_mem (m : Master) (s : Sched) (hs : s.Valid) (k : String)
    (vs : List String) :
    (k, vs) ∈ (Run m s).reduceCalls ↔
      vs = valuesOf k (Run m s).master.intermediate ∧ vs ≠ [] := by
  rw [Run_reduceCalls, (hs.2 _).mem_iff, Run_groups, groupPhase_mem]

theorem Run_result_nodup (m : Master) (s : Sched) : (GoMap.keys (Run m s).result).Nodup :=
  reducePhase_keys_nodup _ _

theorem Run_result_mem_keys (m : Master) (s : Sched) (hs : s.Valid) (k : String) :
    k ∈ GoMap.keys (Run m s).result ↔ ∃ kv ∈ (Run m s).master.intermediate, kv.Key = k := by
  rw [Run_result, reducePhase_mem_keys, ← groupPhase_mem_keys, ← Run_groups]
  exact ((hs.2 _).map Prod.fst).mem_iff

theorem Run_result_lookup (m : Master) (s : Sched) (hs : s.Valid) (k : String) :
    GoMap.lookup (Run m s).result k =
      if valuesOf k (Run m s).master.intermediate = [] then none
      else some (m.reduceF k (valuesOf k (Run m s).master.intermediate)) := by
  have hnd := Run_reduceCalls_nodup m s hs
  rw [Run_reduceCalls] at hnd
  have key := fun v => reducePhase_lookup m.reduceF (s.redOrd (Run m s).groups) hnd k v
  simp only [← Run_result] at key
  simp only [← Run_reduceCalls, Run_reduceCalls_mem m s hs] at key
  by_cases h0 : valuesOf k (Run m s).master.intermediate = []
  · simp only [h0, if_true]
    cases hl : GoMap.lookup (Run m s).result k with
    | none => rfl
    | some v =>
      obtain ⟨vs, ⟨h1, h2⟩, _⟩ := (key v).mp hl
      exact absurd (h1.trans h0) h2
  · simp only [h0, if_false]
    exact (key _).mpr ⟨_, ⟨rfl, h0⟩, rfl⟩

theorem emitted_perm (mapF : MapFunc) {a b : GoMap String} (h : a.Perm b) :
    (emitted mapF a).Perm (emitted mapF b) :=
  List.Perm.flatMap_right _ h

theorem mem_emitted (mapF : MapFunc) (files : GoMap String) (kv : KeyValue) :
    kv ∈ emitted mapF files ↔ ∃ e ∈ files, kv ∈ mapF e.1 e.2 := by
  simp [emitted, List.mem_flatMap]

theorem Run_new_intermediate (files : GoMap String) (mapF : MapFunc) (reduceF : ReduceFunc)
    (s : Sched) (hs : s.Valid) :
    ((Run (NewMaster files mapF reduceF) s).master.intermediate).Perm (emitted mapF files) := by
  rw [Run_intermediate]
  simpa [NewMaster] using emitted_perm mapF (hs.1 files)

theorem GoMap.set_lengths {V : Type} (g : GoMap (List V)) (k : String) (v : List V) :
    ((GoMap.set g k v).map (fun e => e.2.length)).sum + (GoMap.get g k).length =
      (g.map (fun e => e.2.length)).sum + v.length := by
  induction g with
  | nil => simp [GoMap.set, GoMap.get, GoMap.lookup]
  | cons p t ih =>
    obtain ⟨a, b⟩ := p
    by_cases h : a = k
    · simp [GoMap.set, GoMap.get, GoMap.lookup, h]
      omega
    · have ih2 : (List.map (fun e => e.2.length) (GoMap.set t k v)).sum +
          ((GoMap.lookup t k).getD []).length =
          (List.map (fun e => e.2.length) t).sum + v.length := ih
      simp only [GoMap.set, GoMap.get, GoMap.lookup, h, if_false, List.map_cons, List.sum_cons]
      omega

theorem groupPhase_lengths (buf : List KeyValue) :
    ((groupPhase buf).map (fun e => e.2.length)).sum = buf.length := by
  induction buf using List.reverseRecOn with
  | nil => simp [groupPhase]
  | append_singleton l a ih =>
    have h := GoMap.set_lengths (groupPhase l) a.Key (GoMap.get (groupPhase l) a.Key ++ [a.Value])
    rw [groupPhase_snoc]
    simp only [List.length_append, List.length_singleton] at h ⊢
    omega

theorem emitted_length (mapF : MapFunc) (files : GoMap String) :
    (emitted mapF files).length = (files.map (fun e => (mapF e.1 e.2).length)).sum := by
  simp [emitted, List.length_flatMap, Function.comp_def]

theorem emitted_eq_nil (mapF : MapFunc) (files : GoMap String)
    (hz : ∀ e ∈ files, mapF e.1 e.2 = []) : emitted mapF files = [] := by
  induction files with
  | nil => rfl
  | cons e t ih =>
    have h1 : mapF e.1 e.2 = [] := hz e (List.mem_cons_self e t)
    have h2 : emitted mapF t = [] := ih (fun x hx => hz x (List.mem_cons_of_mem e hx))
    simp only [emitted] at h2
    simp [emitted, List.flatMap_cons, h1, h2]

theorem Sched.mapOrd_nil (s : Sched) (hs : s.Valid) : s.mapOrd [] = [] :=
  (hs.1 []).eq_nil

theorem Sched.redOrd_nil (s : Sched) (hs : s.Valid) : s.redOrd [] = [] :=
  (hs.2 []).eq_nil

/-! ## The contract of `Run` -/

/-- C2 (completeness): on a newly constructed Master the returned map has one entry per
distinct emitted key: its keys are pairwise distinct, every key of it was emitted by some
map invocation, and every emitted key is a key of it. -/
theorem run_keys_exact (files : GoMap String) (mapF : MapFunc) (reduceF : ReduceFunc)
    (s : Sched) (hs : s.Valid) :
    (GoMap.keys (Run (NewMaster files mapF reduceF) s).result).Nodup ∧
    ∀ k, k ∈ GoMap.keys (Run (NewMaster files mapF reduceF) s).result ↔
      ∃ e ∈ files, ∃ kv ∈ mapF e.1 e.2, kv.Key = k := by
  refine ⟨Run_result_nodup _ _, fun k => ?_⟩
  rw [Run_result_mem_keys _ _ hs]
  have hp := Run_new_intermediate files mapF reduceF s hs
  constructor
  · rintro ⟨kv, hkv, he⟩
    obtain ⟨e, hef, hm⟩ := (mem_emitted mapF files kv).mp (hp.mem_iff.mp hkv)
    exact ⟨e, hef, kv, hm, he⟩
  · rintro ⟨e, hef, kv, hm, he⟩
    exact ⟨kv, hp.mem_iff.mpr ((mem_emitted mapF files kv).mpr ⟨e, hef, hm⟩), he⟩

theorem run_keys_exact_witness :
    Sched.Valid Sched.reversed ∧
    (GoMap.keys (Run (NewMaster [("f1", "hello world"), ("f2", "hello go")]
      mapFunc reduceFunc) Sched.reversed).result).Nodup ∧
    ∀ k, k ∈ GoMap.keys (Run (NewMaster [("f1", "hello world"), ("f2", "hello go")]
        mapFunc reduceFunc) Sched.reversed).result ↔
      ∃ e ∈ [("f1", "hello world"), ("f2", "hello go")],
        ∃ kv ∈ mapFunc e.1 e.2, kv.Key = k :=
  ⟨Sched.valid_reversed,
    run_keys_exact [("f1", "hello world"), ("f2", "hello go")] mapFunc reduceFunc
      Sched.reversed Sched.valid_reversed⟩

/-- C3 (reduce): for every key `k` of the returned map, the stored value is
`reduceF k vs`, where `vs` is what the grouped map holds for `k`, and `vs` is the
sequence of all values of the buffer's pairs whose key is `k`. -/
theorem run_value_is_reduce (m : Master) (s : Sched) (hs : s.Valid) (k : String)
    (hk : k ∈ GoMap.keys (Run m s).result) :
    GoMap.lookup (Run m s).result k = some (m.reduceF k (GoMap.get (Run m s).groups k)) ∧
    GoMap.get (Run m s).groups k = valuesOf k (Run m s).master.intermediate := by
  have hg : GoMap.get (Run m s).groups k = valuesOf k (Run m s).master.intermediate := by
    rw [Run_groups, groupPhase_get]
  refine ⟨?_, hg⟩
  rw [hg, Run_result_lookup m s hs]
  have hne : valuesOf k (Run m s).master.intermediate ≠ [] := by
    intro h0
    obtain ⟨kv, hkv, he⟩ := (Run_result_mem_keys m s hs k).mp hk
    exact (valuesOf_eq_nil_iff k _).mp h0 kv hkv he
  simp [hne]

theorem run_value_is_reduce_witness :
    Sched.Valid Sched.reversed ∧
    "hello" ∈ GoMap.keys (Run (NewMaster [("f1", "hello world"), ("f2", "hello go")]
      mapFunc reduceFunc) Sched.reversed).result ∧
    GoMap.lookup (Run (NewMaster [("f1", "hello world"), ("f2", "hello go")]
      mapFunc reduceFunc) Sched.reversed).result "hello" =
      some (reduceFunc "hello" (GoMap.get (Run (NewMaster
        [("f1", "hello world"), ("f2", "hello go")] mapFunc reduceFunc)
        Sched.reversed).groups "hello")) ∧
    GoMap.get (Run (NewMaster [("f1", "hello world"), ("f2", "hello go")]
      mapFunc reduceFunc) Sched.reversed).groups "hello" =
      valuesOf "hello" (Run (NewMaster [("f1", "hello world"), ("f2", "hello go")]
        mapFunc reduceFunc) Sched.reversed).master.intermediate :=
  ⟨Sched.valid_reversed, by decide,
    run_value_is_reduce (NewMaster [("f1", "hello world"), ("f2", "hello go")]
      mapFunc reduceFunc) Sched.reversed Sched.valid_reversed "hello" (by decide)⟩

/-- C4 (conservation) fails on a Master that has run before. For every Master and every
schedule, the lengths of the value sequences handed to the reduce function add up to the
length of the buffer the Master held when Run was entered plus the number of pairs
emitted by the map invocations of that Run (one invocation per input): nothing is lost,
and the two numbers agree when the buffer was empty, as on a newly constructed Master.
On the Master left by a first Run over `f1 ↦ hello world` the second Run hands four
values to the reduce function although its map invocation emits two pairs. -/
theorem run_conservation_carry_over :
    (∀ (m : Master) (s : Sched), s.Valid →
      (((Run m s).reduceCalls).map (fun c => c.2.length)).sum =
        m.intermediate.length +
          (((Run m s).mapCalls).map (fun e => (m.mapF e.1 e.2).length)).sum ∧
      ((Run m s).mapCalls).Perm m.files) ∧
    (((Run usedMaster Sched.inOrder).reduceCalls).map (fun c => c.2.length)).sum = 4 ∧
    (((Run usedMaster Sched.inOrder).mapCalls).map
      (fun e => (usedMaster.mapF e.1 e.2).length)).sum = 2 ∧
    (Run usedMaster Sched.inOrder).reduceCalls =
      [("hello", ["1", "1"]), ("world", ["1", "1"])] := by
  refine ⟨fun m s hs => ?_, by decide, by decide, by decide⟩
  have hm : (Run m s).mapCalls = s.mapOrd m.files := Run_mapCalls m s
  refine ⟨?_, hm ▸ hs.1 m.files⟩
  rw [hm, ← emitted_length, Run_reduceCalls,
    ((hs.2 _).map (fun c => c.2.length)).sum_eq, Run_groups, groupPhase_lengths,
    Run_intermediate, List.length_append]

/-- C5 (permutation) fails on a Master that has run before. For every Master and every
schedule, the value sequence passed to the reduce function for a key `k` is the values
the buffer held for `k` when Run was entered, followed by the values emitted with key
`k` by the map invocations of that Run in the order of their appends, and the latter are
a permutation of the values emitted with key `k` over all inputs. On the Master left by
a first Run over `f1 ↦ hello world` the second Run passes `["1", "1"]` for `hello`
although the one value `"1"` is emitted with that key. -/
theorem run_values_carry_over :
    (∀ (m : Master) (s : Sched), s.Valid → ∀ k vs, (k, vs) ∈ (Run m s).reduceCalls →
      vs = valuesOf k m.intermediate ++ valuesOf k (emitted m.mapF (Run m s).mapCalls) ∧
      (valuesOf k (emitted m.mapF (Run m s).mapCalls)).Perm
        (valuesOf k (emitted m.mapF m.files))) ∧
    ("hello", ["1", "1"]) ∈ (Run usedMaster Sched.inOrder).reduceCalls ∧
    valuesOf "hello" (emitted usedMaster.mapF usedMaster.files) = ["1"] ∧
    ¬ (["1", "1"] : List String).Perm
      (valuesOf "hello" (emitted usedMaster.mapF usedMaster.files)) := by
  refine ⟨fun m s hs k vs hvs => ?_, by decide, by decide, by decide⟩
  have hm : (Run m s).mapCalls = s.mapOrd m.files := Run_mapCalls m s
  rw [Run_reduceCalls_mem _ _ hs] at hvs
  rw [hm]
  refine ⟨?_, valuesOf_perm k (emitted_perm m.mapF (hs.1 m.files))⟩
  rw [hvs.1, Run_intermediate, valuesOf_append]

/-- C8 (empty input): Run on a Master constructed with an empty Input Set returns the
empty map, calls neither the map nor the reduce function, and leaves the Master as
constructed. -/
theorem run_empty_input (mapF : MapFunc) (reduceF : ReduceFunc) (s : Sched) (hs : s.Valid) :
    (Run (NewMaster [] mapF reduceF) s).result = [] ∧
    (Run (NewMaster [] mapF reduceF) s).mapCalls = [] ∧
    (Run (NewMaster [] mapF reduceF) s).reduceCalls = [] ∧
    (Run (NewMaster [] mapF reduceF) s).master = NewMaster [] mapF reduceF := by
  have h1 := Sched.mapOrd_nil s hs
  have h2 := Sched.redOrd_nil s hs
  simp [Run, NewMaster, mapPhase, groupPhase, reducePhase, h1, h2]

theorem run_empty_input_witness :
    Sched.Valid Sched.reversed ∧
    (Run (NewMaster [] mapFunc reduceFunc) Sched.reversed).result = [] ∧
    (Run (NewMaster [] mapFunc reduceFunc) Sched.reversed).mapCalls = [] ∧
    (Run (NewMaster [] mapFunc reduceFunc) Sched.reversed).reduceCalls = [] ∧
    (Run (NewMaster [] mapFunc reduceFunc) Sched.reversed).master =
      NewMaster [] mapFunc reduceFunc :=
  ⟨Sched.valid_reversed, run_empty_input mapFunc reduceFunc Sched.reversed Sched.valid_reversed⟩

/-- C9 (nothing emitted): if the map function emits no pair for any input, Run on the
newly constructed Master returns the empty map and never calls the reduce function,
whatever the Input Set; the map function is called once per input and the Master is
left as constructed. -/
theorem run_nothing_emitted (files : GoMap String) (mapF : MapFunc) (reduceF : ReduceFunc)
    (s : Sched) (hs : s.Valid) (hz : ∀ e ∈ files, mapF e.1 e.2 = []) :
    (Run (NewMaster files mapF reduceF) s).result = [] ∧
    (Run (NewMaster files mapF reduceF) s).reduceCalls = [] ∧
    ((Run (NewMaster files mapF reduceF) s).mapCalls).Perm files ∧
    (Run (NewMaster files mapF reduceF) s).master = NewMaster files mapF reduceF := by
  have he : emitted mapF (s.mapOrd files) = [] :=
    emitted_eq_nil mapF _ (fun e h => hz e ((hs.1 files).mem_iff.mp h))
  have h2 := Sched.redOrd_nil s hs
  have hp := hs.1 files
  simp [Run, NewMaster, mapPhase_eq, he, groupPhase, reducePhase, h2, hp]

theorem run_nothing_emitted_witness :
    Sched.Valid Sched.reversed ∧
    (∀ e ∈ [("a", "x y"), ("b", "z")], emitNothing e.1 e.2 = []) ∧
    (Run (NewMaster [("a", "x y"), ("b", "z")] emitNothing reduceFunc) Sched.reversed).result
      = [] ∧
    (Run (NewMaster [("a", "x y"), ("b", "z")] emitNothing reduceFunc)
      Sched.reversed).reduceCalls = [] ∧
    ((Run (NewMaster [("a", "x y"), ("b", "z")] emitNothing reduceFunc)
      Sched.reversed).mapCalls).Perm [("a", "x y"), ("b", "z")] ∧
    (Run (NewMaster [("a", "x y"), ("b", "z")] emitNothing reduceFunc) Sched.reversed).master
      = NewMaster [("a", "x y"), ("b", "z")] emitNothing reduceFunc :=
  ⟨Sched.valid_reversed, fun _ _ => rfl,
    run_nothing_emitted [("a", "x y"), ("b", "z")] emitNothing reduceFunc Sched.reversed
      Sched.valid_reversed (fun _ _ => rfl)⟩

theorem foldl_snoc_map {α β : Type} (g : α → β) (l : List α) (acc : List β) :
    l.foldl (fun kva w => kva ++ [g w]) acc = acc ++ l.map g := by
  induction l generalizing acc with
  | nil => simp
  | cons a t ih => simp [List.foldl_cons, ih, List.append_assoc]

theorem mapFunc_eq (filename contents : String) :
    mapFunc filename contents = (Fields contents).map (fun w => KeyValue.mk w "1") := by
  simp [mapFunc, foldl_snoc_map]

theorem foldl_count {α : Type} (l : List α) (n : Nat) :
    l.foldl (fun count _ => count + 1) n = n + l.length := by
  induction l generalizing n with
  | nil => simp
  | cons a t ih => simp [List.foldl_cons, ih]; omega

theorem reduceFunc_eq (key : String) (values : List String) :
    reduceFunc key values = Nat.repr values.length := by
  simp [reduceFunc, foldl_count]

theorem valuesOf_words_length (w : String) (l : List String) :
    (valuesOf w (l.map (fun x => KeyValue.mk x "1"))).length = l.count w := by
  induction l with
  | nil => simp [valuesOf]
  | cons a t ih =>
    simp only [valuesOf, List.map_cons, List.length_map] at ih ⊢
    by_cases h : a = w
    · simp [List.filter_cons, h, ih]
    · simp [List.filter_cons, h, ih, List.count_cons]

theorem valuesOf_emitted_length (files : GoMap String) (w : String) :
    (valuesOf w (emitted mapFunc files)).length = occurrences files w := by
  induction files with
  | nil => simp [valuesOf, emitted, occurrences]
  | cons e t ih =>
    have h : emitted mapFunc (e :: t) = mapFunc e.1 e.2 ++ emitted mapFunc t := by
      simp [emitted, List.flatMap_cons]
    rw [h, valuesOf_append, List.length_append, ih, mapFunc_eq, valuesOf_words_length]
    simp [occurrences]

theorem occurrences_pos_iff (files : GoMap String) (w : String) :
    occurrences files w ≠ 0 ↔ ∃ e ∈ files, w ∈ Fields e.2 := by
  induction files with
  | nil => simp [occurrences]
  | cons e t ih =>
    have h : occurrences (e :: t) w = (Fields e.2).count w + occurrences t w := by
      simp [occurrences]
    rw [h, List.exists_mem_cons_iff, ← ih, ← List.count_pos_iff]
    omega

theorem wordcount_lookup (files : GoMap String) (s : Sched) (hs : s.Valid) (w : String) :
    GoMap.lookup (Run (NewMaster files mapFunc reduceFunc) s).result w =
      if occurrences files w = 0 then none else some (Nat.repr (occurrences files w)) := by
  rw [Run_result_lookup _ _ hs]
  have hp := valuesOf_perm w (Run_new_intermediate files mapFunc reduceFunc s hs)
  have hl := hp.length_eq
  rw [valuesOf_emitted_length] at hl
  have hn : (NewMaster files mapFunc reduceFunc).reduceF = reduceFunc := rfl
  rw [hn, reduceFunc_eq, hl]
  by_cases h0 : occurrences files w = 0
  · rw [h0] at hl
    simp [h0, List.length_eq_zero.mp hl]
  · have h1 : valuesOf w (Run (NewMaster files mapFunc reduceFunc) s).master.intermediate
        ≠ [] := by
      intro h
      rw [h] at hl
      exact h0 hl.symm
    simp [h0, h1]

theorem GoMap.perm_of_lookup {V : Type} (m₁ m₂ : GoMap V) (h₁ : (GoMap.keys m₁).Nodup)
    (h₂ : (GoMap.keys m₂).Nodup) (h : ∀ k, GoMap.lookup m₁ k = GoMap.lookup m₂ k) :
    m₁.Perm m₂ := by
  refine (List.perm_ext_iff_of_nodup (List.Nodup.of_map _ h₁) (List.Nodup.of_map _ h₂)).mpr ?_
  rintro ⟨k, v⟩
  rw [← GoMap.lookup_eq_some_iff m₁ k v h₁, ← GoMap.lookup_eq_some_iff m₂ k v h₂, h]

theorem wordcount_scenario1 (s : Sched) (hs : s.Valid) :
    ((Run (NewMaster [("a", "x y x")] mapFunc reduceFunc) s).result).Perm
      [("x", "2"), ("y", "1")] := by
  refine GoMap.perm_of_lookup _ _ (Run_result_nodup _ _) (by decide) (fun k => ?_)
  rw [wordcount_lookup _ s hs]
  have hf : Fields "x y x" = ["x", "y", "x"] := by decide
  have ho : occurrences [("a", "x y x")] k = List.count k ["x", "y", "x"] := by
    simp [occurrences, hf]
  rw [ho]
  by_cases hx : k = "x"
  · subst hx; decide
  · by_cases hy : k = "y"
    · subst hy; decide
    · have hx2 : ¬ "x" = k := fun e => hx e.symm
      have hy2 : ¬ "y" = k := fun e => hy e.symm
      simp [List.count_cons, hx2, hy2, GoMap.lookup]

theorem wordcount_scenario2 (s : Sched) (hs : s.Valid) :
    ((Run (NewMaster [("f1", "hello world"), ("f2", "hello go")] mapFunc reduceFunc)
      s).result).Perm [("hello", "2"), ("world", "1"), ("go", "1")] := by
  refine GoMap.perm_of_lookup _ _ (Run_result_nodup _ _) (by decide) (fun k => ?_)
  rw [wordcount_lookup _ s hs]
  have hf1 : Fields "hello world" = ["hello", "world"] := by decide
  have hf2 : Fields "hello go" = ["hello", "go"] := by decide
  have ho : occurrences [("f1", "hello world"), ("f2", "hello go")] k =
      List.count k ["hello", "world"] + List.count k ["hello", "go"] := by
    simp [occurrences, hf1, hf2]
  rw [ho]
  by_cases hh : k = "hello"
  · subst hh; decide
  · by_cases hw : k = "world"
    · subst hw; decide
    · by_cases hg : k = "go"
      · subst hg; decide
      · have hh2 : ¬ "hello" = k := fun e => hh e.symm
        have hw2 : ¬ "world" = k := fun e => hw e.symm
        have hg2 : ¬ "go" = k := fun e => hg e.symm
        simp [List.count_cons, hh2, hw2, hg2, GoMap.lookup]

/-- C1 (word count): for every Input Set and every order of the map tasks, Run on a
newly constructed Master with the built-in functions returns a map with pairwise distinct
keys, whose keys are exactly the whitespace-separated words of the inputs and whose value
for a word is the decimal string of its number of occurrences over all inputs; the two
scenarios of the specification give the stated maps. -/
theorem run_wordcount (files : GoMap String) (s : Sched) (hs : s.Valid) :
    (GoMap.keys (Run (NewMaster files mapFunc reduceFunc) s).result).Nodup ∧
    (∀ w, w ∈ GoMap.keys (Run (NewMaster files mapFunc reduceFunc) s).result ↔
      ∃ e ∈ files, w ∈ Fields e.2) ∧
    (∀ w, w ∈ GoMap.keys (Run (NewMaster files mapFunc reduceFunc) s).result →
      GoMap.lookup (Run (NewMaster files mapFunc reduceFunc) s).result w =
        some (Nat.repr (occurrences files w))) ∧
    ((Run (NewMaster [("a", "x y x")] mapFunc reduceFunc) s).result).Perm
      [("x", "2"), ("y", "1")] ∧
    ((Run (NewMaster [("f1", "hello world"), ("f2", "hello go")] mapFunc reduceFunc)
      s).result).Perm [("hello", "2"), ("world", "1"), ("go", "1")] := by
  have hkey : ∀ w, w ∈ GoMap.keys (Run (NewMaster files mapFunc reduceFunc) s).result ↔
      occurrences files w ≠ 0 := by
    intro w
    rw [GoMap.mem_keys_iff, wordcount_lookup files s hs w]
    by_cases h0 : occurrences files w = 0 <;> simp [h0]
  refine ⟨Run_result_nodup _ _, fun w => ?_, fun w hw => ?_, wordcount_scenario1 s hs,
    wordcount_scenario2 s hs⟩
  · rw [hkey, occurrences_pos_iff]
  · rw [wordcount_lookup files s hs w]
    simp [(hkey w).mp hw]

theorem run_wordcount_witness :
    Sched.Valid Sched.reversed ∧
    (GoMap.keys (Run (NewMaster [("f1", "go"), ("f2", "go  gopher\tgo")]
      mapFunc reduceFunc) Sched.reversed).result).Nodup ∧
    (∀ w, w ∈ GoMap.keys (Run (NewMaster [("f1", "go"), ("f2", "go  gopher\tgo")]
        mapFunc reduceFunc) Sched.reversed).result ↔
      ∃ e ∈ [("f1", "go"), ("f2", "go  gopher\tgo")], w ∈ Fields e.2) ∧
    (∀ w, w ∈ GoMap.keys (Run (NewMaster [("f1", "go"), ("f2", "go  gopher\tgo")]
        mapFunc reduceFunc) Sched.reversed).result →
      GoMap.lookup (Run (NewMaster [("f1", "go"), ("f2", "go  gopher\tgo")]
        mapFunc reduceFunc) Sched.reversed).result w =
        some (Nat.repr (occurrences [("f1", "go"), ("f2", "go  gopher\tgo")] w))) ∧
    ((Run (NewMaster [("a", "x y x")] mapFunc reduceFunc) Sched.reversed).result).Perm
      [("x", "2"), ("y", "1")] ∧
    ((Run (NewMaster [("f1", "hello world"), ("f2", "hello go")] mapFunc reduceFunc)
      Sched.reversed).result).Perm [("hello", "2"), ("world", "1"), ("go", "1")] :=
  ⟨Sched.valid_reversed,
    run_wordcount [("f1", "go"), ("f2", "go  gopher\tgo")] Sched.reversed
      Sched.valid_reversed⟩

/-- C6, as stated, fails: with a map function that emits every input under the key "k"
and a reduce function that returns the first value it is given, the inputs
`a ↦ x`, `b ↦ y` give the value "x" when the task of `a` appends first and "y" when
the task of `b` appends first. -/
theorem run_depends_on_interleaving :
    Sched.Valid Sched.inOrder ∧ Sched.Valid Sched.reversed ∧
    GoMap.lookup (Run (NewMaster [("a", "x"), ("b", "y")] emitContent firstValue)
      Sched.inOrder).result "k" = some "x" ∧
    GoMap.lookup (Run (NewMaster [("a", "x"), ("b", "y")] emitContent firstValue)
      Sched.reversed).result "k" = some "y" ∧
    GoMap.lookup (Run (NewMaster [("a", "x"), ("b", "y")] emitContent firstValue)
      Sched.inOrder).result "k" ≠
    GoMap.lookup (Run (NewMaster [("a", "x"), ("b", "y")] emitContent firstValue)
      Sched.reversed).result "k" :=
  ⟨Sched.valid_inOrder, Sched.valid_reversed, by decide, by decide, by decide⟩

/-- C6, amended: for a fixed Input Set and any map and reduce functions, two Runs on
newly constructed Masters under any two interleavings return maps with the same key set;
they also hold the same values when the reduce function does not depend on the order of
its value sequence. -/
theorem run_interleaving_independent (files : GoMap String) (mapF : MapFunc)
    (reduceF : ReduceFunc) (s₁ s₂ : Sched) (h₁ : s₁.Valid) (h₂ : s₂.Valid) :
    (∀ k, k ∈ GoMap.keys (Run (NewMaster files mapF reduceF) s₁).result ↔
      k ∈ GoMap.keys (Run (NewMaster files mapF reduceF) s₂).result) ∧
    ((∀ k vs vs', vs.Perm vs' → reduceF k vs = reduceF k vs') →
      ∀ k, GoMap.lookup (Run (NewMaster files mapF reduceF) s₁).result k =
        GoMap.lookup (Run (NewMaster files mapF reduceF) s₂).result k) := by
  have hp : ((Run (NewMaster files mapF reduceF) s₁).master.intermediate).Perm
      (Run (NewMaster files mapF reduceF) s₂).master.intermediate :=
    (Run_new_intermediate files mapF reduceF s₁ h₁).trans
      (Run_new_intermediate files mapF reduceF s₂ h₂).symm
  constructor
  · intro k
    rw [Run_result_mem_keys _ _ h₁, Run_result_mem_keys _ _ h₂]
    constructor
    · rintro ⟨kv, hkv, he⟩; exact ⟨kv, hp.mem_iff.mp hkv, he⟩
    · rintro ⟨kv, hkv, he⟩; exact ⟨kv, hp.mem_iff.mpr hkv, he⟩
  · intro hinv k
    have hv := valuesOf_perm k hp
    rw [Run_result_lookup _ _ h₁, Run_result_lookup _ _ h₂]
    have hr : (NewMaster files mapF reduceF).reduceF = reduceF := rfl
    rw [hr, hinv k _ _ hv]
    by_cases h0 : valuesOf k (Run (NewMaster files mapF reduceF) s₂).master.intermediate = []
    · rw [h0] at hv
      simp [h0, hv.eq_nil]
    · have h1 : valuesOf k (Run (NewMaster files mapF reduceF) s₁).master.intermediate
          ≠ [] := by
        intro h
        rw [h] at hv
        exact h0 hv.symm.eq_nil
      simp [h0, h1]

theorem run_interleaving_independent_witness :
    Sched.Valid Sched.inOrder ∧ Sched.Valid Sched.reversed ∧
    (∀ k, k ∈ GoMap.keys (Run (NewMaster [("f1", "hello world"), ("f2", "hello go")]
        mapFunc reduceFunc) Sched.inOrder).result ↔
      k ∈ GoMap.keys (Run (NewMaster [("f1", "hello world"), ("f2", "hello go")]
        mapFunc reduceFunc) Sched.reversed).result) ∧
    (∀ k vs vs', vs.Perm vs' → reduceFunc k vs = reduceFunc k vs') ∧
    (∀ k, GoMap.lookup (Run (NewMaster [("f1", "hello world"), ("f2", "hello go")]
        mapFunc reduceFunc) Sched.inOrder).result k =
      GoMap.lookup (Run (NewMaster [("f1", "hello world"), ("f2", "hello go")]
        mapFunc reduceFunc) Sched.reversed).result k) :=
  ⟨Sched.valid_inOrder, Sched.valid_reversed,
    (run_interleaving_independent [("f1", "hello world"), ("f2", "hello go")] mapFunc
      reduceFunc Sched.inOrder Sched.reversed Sched.valid_inOrder Sched.valid_reversed).1,
    fun k vs vs' h => by rw [reduceFunc_eq, reduceFunc_eq, h.length_eq],
    (run_interleaving_independent [("f1", "hello world"), ("f2", "hello go")] mapFunc
      reduceFunc Sched.inOrder Sched.reversed Sched.valid_inOrder Sched.valid_reversed).2
      (fun k vs vs' h => by rw [reduceFunc_eq, reduceFunc_eq, h.length_eq])⟩

/-- C7: a second Run on the same Master does not repeat the first result. With the
built-in functions and the input `a ↦ x y x`, the first Run returns `x ↦ 2`, `y ↦ 1`;
the second Run appends the same three pairs to the buffer the first one left behind and
returns `x ↦ 4`, `y ↦ 2`. -/
theorem run_twice_accumulates :
    (Run (NewMaster [("a", "x y x")] mapFunc reduceFunc) Sched.inOrder).result =
      [("x", "2"), ("y", "1")] ∧
    (Run (Run (NewMaster [("a", "x y x")] mapFunc reduceFunc) Sched.inOrder).master
      Sched.inOrder).result = [("x", "4"), ("y", "2")] ∧
    (Run (NewMaster [("a", "x y x")] mapFunc reduceFunc) Sched.inOrder).master.intermediate =
      [KeyValue.mk "x" "1", KeyValue.mk "y" "1", KeyValue.mk "x" "1"] ∧
    (Run (Run (NewMaster [("a", "x y x")] mapFunc reduceFunc) Sched.inOrder).master
      Sched.inOrder).master.intermediate =
      [KeyValue.mk "x" "1", KeyValue.mk "y" "1", KeyValue.mk "x" "1",
       KeyValue.mk "x" "1", KeyValue.mk "y" "1", KeyValue.mk "x" "1"] := by
  decide

/-! ## The built-in task functions on their own -/

theorem fieldsAux_eq (cs cur : List Char) :
    fieldsAux cs cur =
      (((cs.splitOnP isSpace).modifyHead (fun w => cur ++ w)).filter
        (fun w => !w.isEmpty)).map String.mk := by
  induction cs generalizing cur with
  | nil =>
    cases cur <;> simp [fieldsAux, List.splitOnP_nil, List.modifyHead]
  | cons c cs ih =>
    by_cases hc : isSpace c = true
    · have h0 := ih []
      simp only [List.nil_append] at h0
      have hid : List.modifyHead (fun w : List Char => w) (List.splitOnP isSpace cs) =
          List.splitOnP isSpace cs := by
        cases List.splitOnP isSpace cs <;> rfl
      rw [hid] at h0
      cases cur with
      | nil => simp [fieldsAux, hc, List.splitOnP_cons, List.modifyHead, h0]
      | cons a t => simp [fieldsAux, hc, List.splitOnP_cons, List.modifyHead, h0]
    · have hc2 : isSpace c = false := Bool.eq_false_iff.mpr hc
      have h1 := ih (cur ++ [c])
      have hf : (fun w : List Char => cur ++ [c] ++ w) =
          (fun w => cur ++ w) ∘ List.cons c := by
        funext w
        simp
      rw [fieldsAux, List.splitOnP_cons]
      simp only [hc2, Bool.false_eq_true, if_false]
      rw [h1, List.modifyHead_modifyHead, hf]

theorem Fields_eq_wordsOf (contents : String) : Fields contents = wordsOf contents := by
  have h := fieldsAux_eq contents.data []
  have hid : List.modifyHead (fun w : List Char => [] ++ w)
      (List.splitOnP isSpace contents.data) = List.splitOnP isSpace contents.data := by
    cases List.splitOnP isSpace contents.data <;> simp [List.modifyHead]
  rw [hid] at h
  exact h

theorem fieldsAux_spaces (cs : List Char) (h : ∀ ch ∈ cs, isSpace ch = true) :
    fieldsAux cs [] = [] := by
  induction cs with
  | nil => simp [fieldsAux]
  | cons c cs ih =>
    have hc : isSpace c = true := h c (List.mem_cons_self c cs)
    have ht := ih (fun ch hch => h ch (List.mem_cons_of_mem c hch))
    simp [fieldsAux, hc, ht]

theorem toDigitsCore_eq_digits (f : Nat) : ∀ (n : Nat) (ds : List Char), 0 < n → n < f →
    Nat.toDigitsCore 10 f n ds = (Nat.digits 10 n).reverse.map Nat.digitChar ++ ds := by
  induction f with
  | zero => intro n ds _ h; omega
  | succ f ih =>
    intro n ds hpos hlt
    have hd : Nat.digits 10 n = n % 10 :: Nat.digits 10 (n / 10) :=
      Nat.digits_def' (by norm_num) hpos
    by_cases h0 : n / 10 = 0
    · simp [Nat.toDigitsCore, h0, hd]
    · have h1 : 0 < n / 10 := Nat.pos_of_ne_zero h0
      have h2 : n / 10 < f := by omega
      simp [Nat.toDigitsCore, h0, hd, ih (n / 10) _ h1 h2]

theorem repr_eq_decimal (n : Nat) : Nat.repr n = decimal n := by
  by_cases h : n = 0
  · subst h; rfl
  · simp only [decimal, h, if_false, Nat.repr, Nat.toDigits]
    rw [toDigitsCore_eq_digits (n + 1) n [] (Nat.pos_of_ne_zero h) (by omega)]
    simp [List.asString]

theorem digitChar_eq_zero (d : Nat) (h : d < 10) (h0 : Nat.digitChar d = '0') : d = 0 := by
  interval_cases d <;> first | rfl | (exact absurd h0 (by decide))

theorem decimal_ne_zero (n : Nat) (h : n ≠ 0) : decimal n ≠ "0" := by
  intro he
  simp only [decimal, h, if_false] at he
  have hne : Nat.digits 10 n ≠ [] := Nat.digits_ne_nil_iff_ne_zero.mpr h
  have hlast := Nat.getLast_digit_ne_zero 10 h
  have hdata : ((Nat.digits 10 n).reverse.map Nat.digitChar) = ['0'] := by
    have := congrArg String.data he
    simpa using this
  have hlen : (Nat.digits 10 n).length = 1 := by
    have := congrArg List.length hdata
    simpa using this
  obtain ⟨d, hd⟩ := List.length_eq_one.mp hlen
  have hgl : ∀ (l : List Nat) (hl : l ≠ []), l = [d] → l.getLast hl = d := by
    intro l hl e
    subst e
    rfl
  have hd0 : (Nat.digits 10 n).getLast hne = d := hgl _ hne hd
  rw [hd] at hdata
  simp at hdata
  have hlt : d < 10 := Nat.digits_lt_base (by norm_num) (by rw [hd]; simp)
  exact hlast (hd0.trans (digitChar_eq_zero d hlt hdata))

theorem Sched.valid_ofOrder (files order : GoMap String) (h : order.Perm files) :
    Sched.Valid (Sched.ofOrder files order) := by
  refine ⟨fun l => ?_, fun l => List.Perm.refl l⟩
  by_cases hl : l = files
  · subst hl
    simpa [Sched.ofOrder] using h
  · simp [Sched.ofOrder, hl]

/-- C14 (group step): for every buffer and key `k`, the grouped map's sequence for `k`
is the sequence of values of the buffer's pairs with key `k`, in buffer order, so its
length is the number of such pairs; `k` has an entry exactly when some pair of the buffer
carries it, the entry then holds that sequence, and no key has two entries. -/
theorem group_exact (buf : List KeyValue) (k : String) :
    GoMap.get (groupPhase buf) k =
      (buf.filter (fun kv => kv.Key = k)).map KeyValue.Value ∧
    (GoMap.get (groupPhase buf) k).length = buf.countP (fun kv => kv.Key = k) ∧
    (k ∈ GoMap.keys (groupPhase buf) ↔ ∃ kv ∈ buf, kv.Key = k) ∧
    (∀ vs, GoMap.lookup (groupPhase buf) k = some vs →
      vs = (buf.filter (fun kv => kv.Key = k)).map KeyValue.Value) ∧
    (GoMap.keys (groupPhase buf)).Nodup := by
  have hg : GoMap.get (groupPhase buf) k =
      (buf.filter (fun kv => kv.Key = k)).map KeyValue.Value := groupPhase_get buf k
  refine ⟨hg, ?_, groupPhase_mem_keys buf k, fun vs hvs => ?_, groupPhase_nodup buf⟩
  · rw [hg, List.length_map, List.countP_eq_length_filter]
  · rw [GoMap.lookup_eq_some_iff _ _ _ (groupPhase_nodup buf), groupPhase_mem] at hvs
    exact hvs.1

/-- C16 (built-in map function): `mapFunc` returns the pair `(w, "1")` for each
whitespace-separated word `w` of `contents`, in order of occurrence and with repetitions,
so as many pairs as words; the file name plays no part; contents made of whitespace only
(the empty text included) gives no pair. -/
theorem mapFunc_pairs (filename contents : String) :
    mapFunc filename contents = (wordsOf contents).map (fun w => KeyValue.mk w "1") ∧
    (mapFunc filename contents).length = (wordsOf contents).length ∧
    (∀ other, mapFunc other contents = mapFunc filename contents) ∧
    ((∀ ch ∈ contents.data, isSpace ch = true) → mapFunc filename contents = []) ∧
    mapFunc "a" "x y x" = [KeyValue.mk "x" "1", KeyValue.mk "y" "1", KeyValue.mk "x" "1"] ∧
    mapFunc "a" "" = [] ∧ mapFunc "a" " \t\n " = [] := by
  have h : mapFunc filename contents = (wordsOf contents).map (fun w => KeyValue.mk w "1") := by
    rw [mapFunc_eq, Fields_eq_wordsOf]
  refine ⟨h, ?_, fun other => rfl, fun hsp => ?_, by decide, by decide, by decide⟩
  · rw [h, List.length_map]
  · rw [mapFunc_eq]
    have hf : Fields contents = [] := fieldsAux_spaces contents.data hsp
    rw [hf]
    rfl

/-- C17 (built-in reduce function): `reduceFunc` returns the base-10 numeral of the
number of entries of the sequence; two sequences of the same length give the same
result whatever the key and the values, and the values are not added up: the two values
"5" and "7" give "2". -/
theorem reduceFunc_counts (key : String) (values : List String) :
    reduceFunc key values = decimal values.length ∧
    (∀ key' values', values'.length = values.length →
      reduceFunc key' values' = reduceFunc key values) ∧
    reduceFunc "k" ["5", "7"] = "2" ∧ reduceFunc "k" [] = "0" := by
  refine ⟨?_, fun key' values' h => ?_, by decide, by decide⟩
  · rw [reduceFunc_eq, repr_eq_decimal]
  · rw [reduceFunc_eq, reduceFunc_eq, h]

/-- C15: the buffer is not created empty at the start of a Run. Every Run starts from
the buffer the Master holds, so a second Run on the same Master groups the first Run's
pairs again: with the built-in functions and the input `f1 ↦ hello world` the buffer at
the barrier of the second Run holds four pairs, two of them carried over, although the
map task of that Run emitted two. -/
theorem run_buffer_carries_over :
    (∀ (m : Master) (s₁ s₂ : Sched),
      (Run (Run m s₁).master s₂).master.intermediate =
        (Run m s₁).master.intermediate ++ emitted m.mapF (s₂.mapOrd m.files)) ∧
    (Run (NewMaster [("f1", "hello world")] mapFunc reduceFunc)
      Sched.inOrder).master.intermediate =
      [KeyValue.mk "hello" "1", KeyValue.mk "world" "1"] ∧
    emitted mapFunc [("f1", "hello world")] =
      [KeyValue.mk "hello" "1", KeyValue.mk "world" "1"] ∧
    (Run (Run (NewMaster [("f1", "hello world")] mapFunc reduceFunc) Sched.inOrder).master
      Sched.inOrder).master.intermediate =
      [KeyValue.mk "hello" "1", KeyValue.mk "world" "1",
       KeyValue.mk "hello" "1", KeyValue.mk "world" "1"] ∧
    (Run (Run (NewMaster [("f1", "hello world")] mapFunc reduceFunc) Sched.inOrder).master
      Sched.inOrder).groups = [("hello", ["1", "1"]), ("world", ["1", "1"])] := by
  refine ⟨fun m s₁ s₂ => ?_, by decide, by decide, by decide, by decide⟩
  rw [Run_intermediate (Run m s₁).master s₂]
  rfl

/-- C18 (buffer at the barrier): with atomic appends, after the map phase of a Run on a
newly constructed Master the buffer is the concatenation of the outputs of `mapF` over
the inputs in the order in which the tasks appended, and that order is a permutation of
the Input Set, each input once; every permutation of the inputs arises from some
schedule. -/
theorem run_buffer_is_task_concat (files : GoMap String) (mapF : MapFunc)
    (reduceF : ReduceFunc) (s : Sched) (hs : s.Valid) :
    (∃ order : GoMap String, order.Perm files ∧
      (Run (NewMaster files mapF reduceF) s).mapCalls = order ∧
      (Run (NewMaster files mapF reduceF) s).master.intermediate =
        order.flatMap (fun e => mapF e.1 e.2)) ∧
    (∀ order : GoMap String, order.Perm files →
      ∃ s', Sched.Valid s' ∧
        (Run (NewMaster files mapF reduceF) s').master.intermediate =
          order.flatMap (fun e => mapF e.1 e.2)) := by
  constructor
  · refine ⟨s.mapOrd files, hs.1 files, ?_, ?_⟩
    · rw [Run_mapCalls]; rfl
    · rw [Run_intermediate]; simp [NewMaster, emitted]
  · intro order ho
    refine ⟨Sched.ofOrder files order, Sched.valid_ofOrder files order ho, ?_⟩
    rw [Run_intermediate]
    simp [NewMaster, emitted, Sched.ofOrder]

theorem run_buffer_is_task_concat_witness :
    Sched.Valid Sched.reversed ∧
    (∃ order : GoMap String, order.Perm [("f1", "hello world"), ("f2", "hello go")] ∧
      (Run (NewMaster [("f1", "hello world"), ("f2", "hello go")] mapFunc reduceFunc)
        Sched.reversed).mapCalls = order ∧
      (Run (NewMaster [("f1", "hello world"), ("f2", "hello go")] mapFunc reduceFunc)
        Sched.reversed).master.intermediate = order.flatMap (fun e => mapFunc e.1 e.2)) ∧
    (∀ order : GoMap String, order.Perm [("f1", "hello world"), ("f2", "hello go")] →
      ∃ s', Sched.Valid s' ∧
        (Run (NewMaster [("f1", "hello world"), ("f2", "hello go")] mapFunc reduceFunc)
          s').master.intermediate = order.flatMap (fun e => mapFunc e.1 e.2)) :=
  ⟨Sched.valid_reversed,
    run_buffer_is_task_concat [("f1", "hello world"), ("f2", "hello go")] mapFunc reduceFunc
      Sched.reversed Sched.valid_reversed⟩

/-- C19 (no empty group): every value sequence that Run passes to the reduce function
has at least one entry, and when the reduce function is the built-in `reduceFunc` no
value of the returned map is "0". -/
theorem reduce_values_nonempty (m : Master) (s : Sched) (hs : s.Valid) :
    (∀ k vs, (k, vs) ∈ (Run m s).reduceCalls → vs ≠ []) ∧
    (m.reduceF = reduceFunc →
      ∀ k v, GoMap.lookup (Run m s).result k = some v → v ≠ "0") := by
  constructor
  · intro k vs h
    exact ((Run_reduceCalls_mem m s hs k vs).mp h).2
  · intro hr k v hv
    rw [Run_result_lookup m s hs k] at hv
    by_cases h0 : valuesOf k (Run m s).master.intermediate = []
    · simp [h0] at hv
    · simp only [h0, if_false, Option.some.injEq] at hv
      rw [← hv, hr, reduceFunc_eq, repr_eq_decimal]
      exact decimal_ne_zero _ (fun hl => h0 (List.length_eq_zero.mp hl))

theorem reduce_values_nonempty_witness :
    Sched.Valid Sched.reversed ∧
    (∀ k vs, (k, vs) ∈ (Run (NewMaster [("f1", "hello world"), ("f2", "hello go")]
      mapFunc reduceFunc) Sched.reversed).reduceCalls → vs ≠ []) ∧
    (∀ k v, GoMap.lookup (Run (NewMaster [("f1", "hello world"), ("f2", "hello go")]
      mapFunc reduceFunc) Sched.reversed).result k = some v → v ≠ "0") :=
  ⟨Sched.valid_reversed,
    (reduce_values_nonempty (NewMaster [("f1", "hello world"), ("f2", "hello go")]
      mapFunc reduceFunc) Sched.reversed Sched.valid_reversed).1,
    (reduce_values_nonempty (NewMaster [("f1", "hello world"), ("f2", "hello go")]
      mapFunc reduceFunc) Sched.reversed Sched.valid_reversed).2 rfl⟩

/-! ## The map phase step by step: what every reachable state satisfies -/

theorem getElem?_split {α : Type} (l : List α) (i : Nat) (a : α) (h : l[i]? = some a) :
    ∃ l₁ l₂, l = l₁ ++ a :: l₂ ∧ (∀ b, l.set i b = l₁ ++ b :: l₂) ∧
      l.eraseIdx i = l₁ ++ l₂ := by
  induction l generalizing i with
  | nil => simp at h
  | cons x t ih =>
    cases i with
    | zero =>
      simp only [List.getElem?_cons_zero, Option.some.injEq] at h
      subst h
      exact ⟨[], t, rfl, fun b => rfl, rfl⟩
    | succ j =>
      simp only [List.getElem?_cons_succ] at h
      obtain ⟨l₁, l₂, h1, h2, h3⟩ := ih j h
      refine ⟨x :: l₁, l₂, ?_, fun b => ?_, ?_⟩
      · simp [h1]
      · simp [h2 b]
      · simp [h3]

theorem Inv_init (m : Master) : Inv m (Conc.init m) := by
  constructor <;> simp [Conc.init, emitted]

theorem Inv_add (m : Master) (c c' : Conc) (i : Nat) (h : Inv m c)
    (hs : step m.mapF m.reduceF c (.add i) = some c') : Inv m c' := by
  simp only [step] at hs
  split at hs
  · rename_i hc
    split at hs
    · rename_i e he
      obtain ⟨l₁, l₂, h1, _, h3⟩ := getElem?_split c.pending i e he
      simp only [Option.some.injEq] at hs
      subst hs
      have hall := h.all
      rw [hc.2, h1] at hall
      refine ⟨h.cs, ?_, h.kva, h.tmp, h.buf, h.app, ?_, ?_⟩
      · have := h.cnt
        simp only [hc.2] at this
        simp [this]
      · simp only [h3, Option.toList]
        refine List.Perm.trans ?_ hall
        simp only [Option.toList, List.append_nil, List.append_assoc]
        refine List.Perm.append_left l₁ ?_
        simp only [← List.append_assoc]
        refine List.Perm.append_right _ ?_
        simp
      · intro hne
        exact absurd hc.1 hne
    · simp at hs
  · simp at hs

theorem Inv_go (m : Master) (c c' : Conc) (h : Inv m c)
    (hs : step m.mapF m.reduceF c .go = some c') : Inv m c' := by
  simp only [step] at hs
  split at hs
  · rename_i hc
    split at hs
    · rename_i e he
      simp only [Option.some.injEq] at hs
      subst hs
      have hall := h.all
      have hcnt := h.cnt
      rw [he] at hall hcnt
      refine ⟨?_, ?_, ?_, ?_, h.buf, ?_, ?_, ?_⟩
      · simpa [List.filter_append, TaskPc.inCS] using h.cs
      · simp only [List.filter_append, List.filter_cons, TaskPc.live, List.length_append] at hcnt ⊢
        simp at hcnt ⊢
        omega
      · intro t ht hne
        simp only [List.mem_append, List.mem_singleton] at ht
        rcases ht with ht | ht
        · exact h.kva t ht hne
        · subst ht
          exact absurd rfl hne
      · intro t ht hl
        simp only [List.mem_append, List.mem_singleton] at ht
        rcases ht with ht | ht
        · exact h.tmp t ht hl
        · subst ht
          simp at hl
      · simpa [List.filter_append, TaskPc.wrote] using h.app
      · refine List.Perm.trans ?_ hall
        simp only [Option.toList, List.append_nil, List.map_append, List.map_cons,
          List.map_nil, List.append_assoc]
        refine List.Perm.append_left _ ?_
        simp
      · intro hne
        exact absurd hc hne
    · simp at hs
  · simp at hs

theorem live_nil_finished (tasks : List Task)
    (h : (tasks.filter (fun t => t.pc.live)).length = 0) :
    ∀ t ∈ tasks, t.pc = .finished := by
  intro t ht
  have hnil := List.length_eq_zero.mp h
  have hf : t.pc.live = false := by
    by_contra hl
    have hmem : t ∈ tasks.filter (fun t => t.pc.live) := by
      simp [List.mem_filter, ht]
      simpa using hl
    rw [hnil] at hmem
    simp at hmem
  cases hp : t.pc <;> simp [hp, TaskPc.live] at hf
  rfl

theorem Inv_wait (m : Master) (c c' : Conc) (h : Inv m c)
    (hs : step m.mapF m.reduceF c .wait = some c') : Inv m c' := by
  simp only [step] at hs
  split at hs
  · rename_i hc
    simp only [Option.some.injEq] at hs
    subst hs
    refine ⟨h.cs, h.cnt, h.kva, h.tmp, h.buf, h.app, h.all, fun _ => ⟨hc.2.1, hc.2.2.1, ?_⟩⟩
    have hcnt := h.cnt
    rw [hc.2.2.1, hc.2.2.2] at hcnt
    have h0 : (c.tasks.filter (fun t => t.pc.live)).length = 0 := by
      simp only [Option.isSome_none, Bool.false_eq_true, if_false] at hcnt
      omega
    exact live_nil_finished c.tasks h0
  · simp at hs

theorem Inv_group (m : Master) (c c' : Conc) (h : Inv m c)
    (hs : step m.mapF m.reduceF c .group = some c') : Inv m c' := by
  simp only [step] at hs
  split at hs
  · rename_i hc
    simp only [Option.some.injEq] at hs
    subst hs
    have hb := h.bar (by rw [hc]; decide)
    exact ⟨h.cs, h.cnt, h.kva, h.tmp, h.buf, h.app, h.all, fun _ => hb⟩
  · simp at hs

theorem Inv_reduce (m : Master) (c c' : Conc) (order : GoMap (List String)) (h : Inv m c)
    (hs : step m.mapF m.reduceF c (.reduce order) = some c') : Inv m c' := by
  simp only [step] at hs
  split at hs
  · rename_i hc
    simp only [Option.some.injEq] at hs
    subst hs
    have hb := h.bar (by rw [hc.1]; decide)
    exact ⟨h.cs, h.cnt, h.kva, h.tmp, h.buf, h.app, h.all, fun _ => hb⟩
  · simp at hs

theorem count_split (p : TaskPc → Bool) (l₁ l₂ : List Task) (t : Task) :
    ((l₁ ++ t :: l₂).filter (fun x => p x.pc)).length =
      (l₁.filter (fun x => p x.pc)).length + (if p t.pc = true then 1 else 0) +
        (l₂.filter (fun x => p x.pc)).length := by
  by_cases h : p t.pc = true
  · simp [List.filter_append, List.filter_cons, h]
    omega
  · simp [List.filter_append, List.filter_cons, h]

theorem entries_split (p : TaskPc → Bool) (l₁ l₂ : List Task) (t : Task) :
    ((l₁ ++ t :: l₂).filter (fun x => p x.pc)).map Task.entry =
      (l₁.filter (fun x => p x.pc)).map Task.entry ++
        ((if p t.pc = true then [t.entry] else []) ++
          (l₂.filter (fun x => p x.pc)).map Task.entry) := by
  by_cases h : p t.pc = true
  · simp [List.filter_append, List.filter_cons, h]
  · simp [List.filter_append, List.filter_cons, h]

theorem count_zero_not (p : TaskPc → Bool) (l : List Task)
    (h : (l.filter (fun x => p x.pc)).length = 0) : ∀ x ∈ l, p x.pc = false := by
  intro x hx
  by_contra hne
  have hmem : x ∈ l.filter (fun x => p x.pc) := by
    rw [List.mem_filter]
    exact ⟨hx, by simpa using hne⟩
  rw [List.length_eq_zero.mp h] at hmem
  simp at hmem

theorem TaskPc.inCS_eval :
    TaskPc.inCS .start = false ∧ TaskPc.inCS .computed = false ∧
    TaskPc.inCS .locked = true ∧ TaskPc.inCS .loaded = true ∧ TaskPc.inCS .stored = true ∧
    TaskPc.inCS .unlocked = false ∧ TaskPc.inCS .finished = false := by
  decide

theorem TaskPc.live_eval :
    TaskPc.live .start = true ∧ TaskPc.live .computed = true ∧
    TaskPc.live .locked = true ∧ TaskPc.live .loaded = true ∧ TaskPc.live .stored = true ∧
    TaskPc.live .unlocked = true ∧ TaskPc.live .finished = false := by
  decide

theorem TaskPc.wrote_eval :
    TaskPc.wrote .start = false ∧ TaskPc.wrote .computed = false ∧
    TaskPc.wrote .locked = false ∧ TaskPc.wrote .loaded = false ∧
    TaskPc.wrote .stored = true ∧ TaskPc.wrote .unlocked = true ∧
    TaskPc.wrote .finished = true := by
  decide

theorem Inv_task (m : Master) (c c' : Conc) (i : Nat) (h : Inv m c)
    (hs : step m.mapF m.reduceF c (.task i) = some c') : Inv m c' := by
  simp only [step] at hs
  split at hs
  swap
  · simp at hs
  rename_i t ht
  obtain ⟨l₁, l₂, h1, h2, _⟩ := getElem?_split c.tasks i t ht
  have hmem : t ∈ c.tasks := by rw [h1]; simp
  have hsub : ∀ x, x ∈ l₁ ∨ x ∈ l₂ → x ∈ c.tasks := by
    intro x hx
    rw [h1]
    simp only [List.mem_append, List.mem_cons]
    tauto
  have hcs := h.cs
  have hcnt := h.cnt
  have happ := h.app
  have hall := h.all
  rw [h1] at hcs hcnt happ hall
  rw [count_split TaskPc.inCS] at hcs
  rw [count_split TaskPc.live] at hcnt
  rw [entries_split TaskPc.wrote] at happ
  have hbar : ∀ pc, t.pc = pc → pc ≠ .finished → c.mainPc = .mapping := by
    intro pc hpc hne
    by_contra hm
    exact hne (hpc ▸ (h.bar hm).2.2 t hmem)
  unfold stepTask at hs
  split at hs
  · -- line 64, the call of mapF
    rename_i hp
    rw [hp] at hcs hcnt happ
    simp only [TaskPc.inCS_eval, TaskPc.live_eval, TaskPc.wrote_eval, if_true, if_false,
      Bool.false_eq_true] at hcs hcnt happ
    simp only [Option.some.injEq] at hs
    subst hs
    refine ⟨?_, ?_, ?_, ?_, ?_, ?_, ?_, fun hne => absurd (hbar _ hp (by decide)) hne⟩
    · simp only [h2, count_split TaskPc.inCS, TaskPc.inCS_eval, if_true, if_false,
        Bool.false_eq_true]
      exact hcs
    · simp only [h2, count_split TaskPc.live, TaskPc.live_eval, if_true, if_false,
        Bool.false_eq_true]
      exact hcnt
    · intro x hx hne
      simp only [h2, List.mem_append, List.mem_cons] at hx
      rcases hx with hx | hx | hx
      · exact h.kva x (hsub x (Or.inl hx)) hne
      · subst hx; exact rfl
      · exact h.kva x (hsub x (Or.inr hx)) hne
    · intro x hx hl
      simp only [h2, List.mem_append, List.mem_cons] at hx
      rcases hx with hx | hx | hx
      · exact h.tmp x (hsub x (Or.inl hx)) hl
      · subst hx; simp at hl
      · exact h.tmp x (hsub x (Or.inr hx)) hl
    · exact h.buf
    · simp only [h2, entries_split TaskPc.wrote, TaskPc.wrote_eval, if_true, if_false,
        Bool.false_eq_true]
      exact happ
    · simpa [h2] using hall
  · -- line 65, Lock
    rename_i hp
    rw [hp] at hcs hcnt happ
    simp only [TaskPc.inCS_eval, TaskPc.live_eval, TaskPc.wrote_eval, if_true, if_false,
      Bool.false_eq_true] at hcs hcnt happ
    split at hs
    · simp at hs
    rename_i hmu
    simp only [hmu, if_false, Bool.false_eq_true] at hcs
    simp only [Option.some.injEq] at hs
    subst hs
    refine ⟨?_, ?_, ?_, ?_, ?_, ?_, ?_, fun hne => absurd (hbar _ hp (by decide)) hne⟩
    · simp only [h2, count_split TaskPc.inCS, TaskPc.inCS_eval, if_true, if_false,
        Bool.false_eq_true]
      omega
    · simp only [h2, count_split TaskPc.live, TaskPc.live_eval, if_true, if_false,
        Bool.false_eq_true]
      exact hcnt
    · intro x hx hne
      simp only [h2, List.mem_append, List.mem_cons] at hx
      rcases hx with hx | hx | hx
      · exact h.kva x (hsub x (Or.inl hx)) hne
      · subst hx; exact h.kva t hmem (by rw [hp]; decide)
      · exact h.kva x (hsub x (Or.inr hx)) hne
    · intro x hx hl
      simp only [h2, List.mem_append, List.mem_cons] at hx
      rcases hx with hx | hx | hx
      · exact h.tmp x (hsub x (Or.inl hx)) hl
      · subst hx; simp at hl
      · exact h.tmp x (hsub x (Or.inr hx)) hl
    · exact h.buf
    · simp only [h2, entries_split TaskPc.wrote, TaskPc.wrote_eval, if_true, if_false,
        Bool.false_eq_true]
      exact happ
    · simpa [h2] using hall
  · -- line 66, append reads the buffer
    rename_i hp
    rw [hp] at hcs hcnt happ
    simp only [TaskPc.inCS_eval, TaskPc.live_eval, TaskPc.wrote_eval, if_true, if_false,
      Bool.false_eq_true] at hcs hcnt happ
    simp only [Option.some.injEq] at hs
    subst hs
    refine ⟨?_, ?_, ?_, ?_, ?_, ?_, ?_, fun hne => absurd (hbar _ hp (by decide)) hne⟩
    · simp only [h2, count_split TaskPc.inCS, TaskPc.inCS_eval, if_true, if_false,
        Bool.false_eq_true]
      exact hcs
    · simp only [h2, count_split TaskPc.live, TaskPc.live_eval, if_true, if_false,
        Bool.false_eq_true]
      exact hcnt
    · intro x hx hne
      simp only [h2, List.mem_append, List.mem_cons] at hx
      rcases hx with hx | hx | hx
      · exact h.kva x (hsub x (Or.inl hx)) hne
      · subst hx; exact h.kva t hmem (by rw [hp]; decide)
      · exact h.kva x (hsub x (Or.inr hx)) hne
    · intro x hx hl
      simp only [h2, List.mem_append, List.mem_cons] at hx
      rcases hx with hx | hx | hx
      · exact h.tmp x (hsub x (Or.inl hx)) hl
      · subst hx; rfl
      · exact h.tmp x (hsub x (Or.inr hx)) hl
    · exact h.buf
    · simp only [h2, entries_split TaskPc.wrote, TaskPc.wrote_eval, if_true, if_false,
        Bool.false_eq_true]
      exact happ
    · simpa [h2] using hall
  · -- line 66, the appended slice is stored
    rename_i hp
    rw [hp] at hcs hcnt happ
    simp only [TaskPc.inCS_eval, TaskPc.live_eval, TaskPc.wrote_eval, if_true, if_false,
      Bool.false_eq_true] at hcs hcnt happ
    have htmp : t.tmp = c.intermediate := h.tmp t hmem hp
    have hkva : t.kva = m.mapF t.entry.1 t.entry.2 := h.kva t hmem (by rw [hp]; decide)
    have hz : (l₁.filter (fun x => TaskPc.inCS x.pc)).length = 0 ∧
        (l₂.filter (fun x => TaskPc.inCS x.pc)).length = 0 := by
      split at hcs <;> omega
    simp only [Option.some.injEq] at hs
    subst hs
    refine ⟨?_, ?_, ?_, ?_, ?_, ?_, ?_, fun hne => absurd (hbar _ hp (by decide)) hne⟩
    · simp only [h2, count_split TaskPc.inCS, TaskPc.inCS_eval, if_true, if_false,
        Bool.false_eq_true]
      exact hcs
    · simp only [h2, count_split TaskPc.live, TaskPc.live_eval, if_true, if_false,
        Bool.false_eq_true]
      exact hcnt
    · intro x hx hne
      simp only [h2, List.mem_append, List.mem_cons] at hx
      rcases hx with hx | hx | hx
      · exact h.kva x (hsub x (Or.inl hx)) hne
      · subst hx; exact h.kva t hmem (by rw [hp]; decide)
      · exact h.kva x (hsub x (Or.inr hx)) hne
    · intro x hx hl
      simp only [h2, List.mem_append, List.mem_cons] at hx
      rcases hx with hx | hx | hx
      · exact absurd (count_zero_not TaskPc.inCS l₁ hz.1 x hx) (by rw [hl]; decide)
      · subst hx; simp at hl
      · exact absurd (count_zero_not TaskPc.inCS l₂ hz.2 x hx) (by rw [hl]; decide)
    · show t.tmp ++ t.kva = m.intermediate ++ emitted m.mapF (c.appended ++ [t.entry])
      rw [htmp, hkva, h.buf]
      simp [emitted, List.flatMap_append]
    · simp only [h2, entries_split TaskPc.wrote, TaskPc.wrote_eval, if_true, if_false,
        Bool.false_eq_true]
      refine (List.perm_append_comm.trans (List.Perm.cons _ happ)).trans ?_
      simp only [List.nil_append]
      exact List.perm_middle.symm
    · simpa [h2] using hall
  · -- line 67, Unlock
    rename_i hp
    rw [hp] at hcs hcnt happ
    simp only [TaskPc.inCS_eval, TaskPc.live_eval, TaskPc.wrote_eval, if_true, if_false,
      Bool.false_eq_true] at hcs hcnt happ
    have hmu : c.mu = true := by
      by_contra hne
      simp only [hne, if_false, Bool.false_eq_true] at hcs
      omega
    simp only [hmu, if_true] at hcs
    simp only [Option.some.injEq] at hs
    subst hs
    refine ⟨?_, ?_, ?_, ?_, ?_, ?_, ?_, fun hne => absurd (hbar _ hp (by decide)) hne⟩
    · simp only [h2, count_split TaskPc.inCS, TaskPc.inCS_eval, if_true, if_false,
        Bool.false_eq_true]
      omega
    · simp only [h2, count_split TaskPc.live, TaskPc.live_eval, if_true, if_false,
        Bool.false_eq_true]
      exact hcnt
    · intro x hx hne
      simp only [h2, List.mem_append, List.mem_cons] at hx
      rcases hx with hx | hx | hx
      · exact h.kva x (hsub x (Or.inl hx)) hne
      · subst hx; exact h.kva t hmem (by rw [hp]; decide)
      · exact h.kva x (hsub x (Or.inr hx)) hne
    · intro x hx hl
      simp only [h2, List.mem_append, List.mem_cons] at hx
      rcases hx with hx | hx | hx
      · exact h.tmp x (hsub x (Or.inl hx)) hl
      · subst hx; simp at hl
      · exact h.tmp x (hsub x (Or.inr hx)) hl
    · exact h.buf
    · simp only [h2, entries_split TaskPc.wrote, TaskPc.wrote_eval, if_true, if_false,
        Bool.false_eq_true]
      exact happ
    · simpa [h2] using hall
  · -- line 63, the deferred Done
    rename_i hp
    rw [hp] at hcs hcnt happ
    simp only [TaskPc.inCS_eval, TaskPc.live_eval, TaskPc.wrote_eval, if_true, if_false,
      Bool.false_eq_true] at hcs hcnt happ
    simp only [Option.some.injEq] at hs
    subst hs
    refine ⟨?_, ?_, ?_, ?_, ?_, ?_, ?_, fun hne => ?_⟩
    · simp only [h2, count_split TaskPc.inCS, TaskPc.inCS_eval, if_true, if_false,
        Bool.false_eq_true]
      exact hcs
    · simp only [h2, count_split TaskPc.live, TaskPc.live_eval, if_true, if_false,
        Bool.false_eq_true]
      simp only [Nat.cast_add, Nat.cast_one, Nat.cast_zero] at hcnt ⊢
      omega
    · intro x hx hne
      simp only [h2, List.mem_append, List.mem_cons] at hx
      rcases hx with hx | hx | hx
      · exact h.kva x (hsub x (Or.inl hx)) hne
      · subst hx; exact h.kva t hmem (by rw [hp]; decide)
      · exact h.kva x (hsub x (Or.inr hx)) hne
    · intro x hx hl
      simp only [h2, List.mem_append, List.mem_cons] at hx
      rcases hx with hx | hx | hx
      · exact h.tmp x (hsub x (Or.inl hx)) hl
      · subst hx; simp at hl
      · exact h.tmp x (hsub x (Or.inr hx)) hl
    · exact h.buf
    · simp only [h2, entries_split TaskPc.wrote, TaskPc.wrote_eval, if_true, if_false,
        Bool.false_eq_true]
      exact happ
    · simpa [h2] using hall
    · have hb := h.bar hne
      refine ⟨hb.1, hb.2.1, fun x hx => ?_⟩
      simp only [h2, List.mem_append, List.mem_cons] at hx
      rcases hx with hx | hx | hx
      · exact hb.2.2 x (hsub x (Or.inl hx))
      · subst hx; rfl
      · exact hb.2.2 x (hsub x (Or.inr hx))
  · simp at hs

theorem Inv_step (m : Master) (c c' : Conc) (mv : Move) (h : Inv m c)
    (hs : step m.mapF m.reduceF c mv = some c') : Inv m c' := by
  cases mv with
  | add i => exact Inv_add m c c' i h hs
  | go => exact Inv_go m c c' h hs
  | wait => exact Inv_wait m c c' h hs
  | group => exact Inv_group m c c' h hs
  | reduce order => exact Inv_reduce m c c' order h hs
  | task i => exact Inv_task m c c' i h hs

theorem stepTask_mainPc (mapF : MapFunc) (c c' : Conc) (i : Nat) (t : Task)
    (hs : stepTask mapF c i t = some c') : c'.mainPc = c.mainPc ∧ t.pc ≠ .finished := by
  unfold stepTask at hs
  split at hs
  case h_2 =>
    rename_i hp
    split at hs
    · simp at hs
    · simp only [Option.some.injEq] at hs
      subst hs
      exact ⟨rfl, by rw [hp]; decide⟩
  case h_7 => simp at hs
  all_goals
    rename_i hp
    simp only [Option.some.injEq] at hs
    subst hs
    exact ⟨rfl, by rw [hp]; decide⟩

theorem InvMain_init (m : Master) : InvMain m (Conc.init m) := by
  constructor <;> simp [Conc.init]

theorem InvMain_step (m : Master) (c c' : Conc) (mv : Move) (h : Inv m c)
    (hm : InvMain m c) (hs : step m.mapF m.reduceF c mv = some c') : InvMain m c' := by
  cases mv with
  | add i =>
    simp only [step] at hs
    split at hs
    · rename_i hc
      split at hs
      · simp only [Option.some.injEq] at hs
        subst hs
        constructor <;> simp [hc.1]
      · simp at hs
    · simp at hs
  | go =>
    simp only [step] at hs
    split at hs
    · rename_i hc
      split at hs
      · simp only [Option.some.injEq] at hs
        subst hs
        constructor <;> simp [hc]
      · simp at hs
    · simp at hs
  | wait =>
    simp only [step] at hs
    split at hs
    · simp only [Option.some.injEq] at hs
      subst hs
      constructor <;> simp
    · simp at hs
  | group =>
    simp only [step] at hs
    split at hs
    · simp only [Option.some.injEq] at hs
      subst hs
      constructor <;> simp
    · simp at hs
  | reduce order =>
    simp only [step] at hs
    split at hs
    · rename_i hc
      simp only [Option.some.injEq] at hs
      subst hs
      refine ⟨fun _ => hm.grp (Or.inl hc.1), fun _ => ⟨order, hc.2, rfl⟩⟩
    · simp at hs
  | task i =>
    simp only [step] at hs
    split at hs
    · rename_i t ht
      have hmem : t ∈ c.tasks := List.getElem?_mem ht
      obtain ⟨hpc, hnf⟩ := stepTask_mainPc m.mapF c c' i t hs
      have hmap : c.mainPc = .mapping := by
        by_contra hne
        exact hnf ((h.bar hne).2.2 t hmem)
      constructor <;> simp [hpc, hmap]
    · simp at hs

theorem Inv_exec (m : Master) (moves : List Move) :
    ∀ c c', Inv m c → InvMain m c → exec m.mapF m.reduceF c moves = some c' →
      Inv m c' ∧ InvMain m c' := by
  induction moves with
  | nil =>
    intro c c' h hm he
    simp only [exec, Option.some.injEq] at he
    subst he
    exact ⟨h, hm⟩
  | cons mv rest ih =>
    intro c c' h hm he
    simp only [exec] at he
    split at he
    · rename_i c₁ hs
      exact ih c₁ c' (Inv_step m c c₁ mv h hs) (InvMain_step m c c₁ mv h hm hs) he
    · simp at he

theorem Inv_reachable (m : Master) (moves : List Move) (c : Conc)
    (he : exec m.mapF m.reduceF (Conc.init m) moves = some c) : Inv m c ∧ InvMain m c :=
  Inv_exec m moves _ c (Inv_init m) (InvMain_init m) he

theorem all_wrote_of_finished (tasks : List Task) (h : ∀ t ∈ tasks, t.pc = .finished) :
    tasks.filter (fun t => t.pc.wrote) = tasks := by
  rw [List.filter_eq_self]
  intro t ht
  rw [h t ht]
  rfl

theorem Inv_barrier (m : Master) (c : Conc) (h : Inv m c) (hp : c.mainPc ≠ .mapping) :
    c.appended.Perm m.files ∧
    c.intermediate = m.intermediate ++ emitted m.mapF c.appended ∧
    c.wg = 0 ∧ c.mu = false := by
  obtain ⟨h1, h2, h3⟩ := h.bar hp
  have happ := h.app
  have hall := h.all
  have hcnt := h.cnt
  have hcs := h.cs
  rw [all_wrote_of_finished c.tasks h3] at happ
  rw [h1, h2] at hall
  simp only [Option.toList, List.nil_append] at hall
  refine ⟨happ.trans hall, h.buf, ?_, ?_⟩
  · have hl : c.tasks.filter (fun t => t.pc.live) = [] := by
      rw [List.filter_eq_nil_iff]
      intro t ht
      rw [h3 t ht]
      decide
    rw [hl, h2] at hcnt
    simpa using hcnt
  · have hl : c.tasks.filter (fun t => t.pc.inCS) = [] := by
      rw [List.filter_eq_nil_iff]
      intro t ht
      rw [h3 t ht]
      decide
    rw [hl] at hcs
    cases hmu : c.mu
    · rfl
    · rw [hmu] at hcs
      simp at hcs

theorem Sched.valid_ofOrders (files order : GoMap String)
    (groups rorder : GoMap (List String)) (h : order.Perm files) (hr : rorder.Perm groups) :
    Sched.Valid (Sched.ofOrders files order groups rorder) := by
  refine ⟨fun l => ?_, fun l => ?_⟩
  · by_cases hl : l = files
    · subst hl
      simpa [Sched.ofOrders] using h
    · simp [Sched.ofOrders, hl]
  · by_cases hl : l = groups
    · subst hl
      simpa [Sched.ofOrders] using hr
    · simp [Sched.ofOrders, hl]

theorem exec_refines_Run (m : Master) (moves : List Move) (c : Conc)
    (he : exec m.mapF m.reduceF (Conc.init m) moves = some c) (hr : c.mainPc = .returned) :
    ∃ s, Sched.Valid s ∧ c.result = (Run m s).result ∧ c.groups = (Run m s).groups ∧
      c.intermediate = (Run m s).master.intermediate := by
  obtain ⟨h, hm⟩ := Inv_reachable m moves c he
  have hne : c.mainPc ≠ .mapping := by rw [hr]; decide
  obtain ⟨happ, hbuf, _, _⟩ := Inv_barrier m c h hne
  have hg := hm.grp (Or.inr hr)
  obtain ⟨order, ho, hres⟩ := hm.res hr
  refine ⟨Sched.ofOrders m.files c.appended c.groups order,
    Sched.valid_ofOrders _ _ _ _ happ ho, ?_⟩
  have hi : (Run m (Sched.ofOrders m.files c.appended c.groups order)).master.intermediate =
      c.intermediate := by
    rw [Run_intermediate, hbuf]
    simp [Sched.ofOrders]
  have hgr : (Run m (Sched.ofOrders m.files c.appended c.groups order)).groups = c.groups := by
    rw [Run_groups, hi, hg]
  refine ⟨?_, hgr.symm, hi.symm⟩
  rw [Run_result, hgr, hres]
  simp [Sched.ofOrders]

/-- C12 (no lost update) fails on a Master that has run before, in its last part. In
every state that a Run on any Master can reach, for any number of inputs and any
interleaving of the goroutines, at most one map task is between `Lock` and `Unlock` and
a task about to store its append has read the buffer as it is now; once main is past
the barrier the buffer is the buffer held when Run was entered followed by the outputs
of the map tasks in store order, each input once, so no append is lost. Its length is
therefore the old length plus the number of emitted pairs: on the Master left by a first
Run over `f1 ↦ hello world` the buffer has length four past the barrier of the second
Run although the map task emitted two pairs. -/
theorem map_phase_buffer_carry_over :
    (∀ (m : Master) (moves : List Move) (c : Conc),
      exec m.mapF m.reduceF (Conc.init m) moves = some c →
      (c.tasks.filter (fun t => t.pc.inCS)).length ≤ 1 ∧
      (∀ t ∈ c.tasks, t.pc = .loaded → t.tmp = c.intermediate) ∧
      (c.mainPc ≠ .mapping →
        c.intermediate = m.intermediate ++ emitted m.mapF c.appended ∧
        c.appended.Perm m.files ∧
        c.intermediate.length =
          m.intermediate.length + (m.files.map (fun e => (m.mapF e.1 e.2).length)).sum)) ∧
    (exec usedMaster.mapF usedMaster.reduceF (Conc.init usedMaster) usedMoves).map
      (fun c => (c.mainPc, c.intermediate.length, c.appended)) =
      some (.passed, 4, [("f1", "hello world")]) ∧
    (usedMaster.files.map (fun e => (usedMaster.mapF e.1 e.2).length)).sum = 2 := by
  refine ⟨fun m moves c h => ?_, by decide, by decide⟩
  obtain ⟨hi, _⟩ := Inv_reachable m moves c h
  refine ⟨?_, hi.tmp, fun hne => ?_⟩
  · have hcs := hi.cs
    split at hcs <;> omega
  · obtain ⟨happ, hbuf, _, _⟩ := Inv_barrier m c hi hne
    refine ⟨hbuf, happ, ?_⟩
    rw [hbuf, List.length_append, emitted_length]
    rw [(happ.map (fun e => (m.mapF e.1 e.2).length)).sum_eq]

/-- C13 (barrier): in every execution of Run, whenever the group step or the reduce loop
is taken, every input has been given a map task, every map task has stored its append
and called `Done`, the counter of the wait group is zero, the lock is free, and the
buffer that is read holds the output of every task. -/
theorem barrier_before_group (m : Master) (moves : List Move) (c c' : Conc) (mv : Move)
    (h : exec m.mapF m.reduceF (Conc.init m) moves = some c)
    (hmv : mv = .group ∨ ∃ order, mv = .reduce order)
    (hs : step m.mapF m.reduceF c mv = some c') :
    c.pending = [] ∧ c.spawning = none ∧ (∀ t ∈ c.tasks, t.pc = .finished) ∧
    (c.tasks.map Task.entry).Perm m.files ∧ c.wg = 0 ∧ c.mu = false ∧
    c.appended.Perm m.files ∧
    c.intermediate = m.intermediate ++ emitted m.mapF c.appended := by
  obtain ⟨hi, _⟩ := Inv_reachable m moves c h
  have hne : c.mainPc ≠ .mapping := by
    rcases hmv with hmv | ⟨order, hmv⟩
    · subst hmv
      simp only [step] at hs
      split at hs
      · rename_i hc
        rw [hc]; decide
      · simp at hs
    · subst hmv
      simp only [step] at hs
      split at hs
      · rename_i hc
        rw [hc.1]; decide
      · simp at hs
  obtain ⟨h1, h2, h3⟩ := hi.bar hne
  obtain ⟨happ, hbuf, hwg, hmu⟩ := Inv_barrier m c hi hne
  have hall := hi.all
  rw [h1, h2] at hall
  simp only [Option.toList, List.nil_append] at hall
  exact ⟨h1, h2, h3, hall, hwg, hmu, happ, hbuf⟩

theorem barrier_before_group_witness :
    exec mapFunc reduceFunc (Conc.init (NewMaster demoFiles mapFunc reduceFunc))
      demoMapMoves = some demoPassed ∧
    step mapFunc reduceFunc demoPassed .group = some demoGrouped ∧
    demoPassed.pending = [] ∧ demoPassed.spawning = none ∧
    (∀ t ∈ demoPassed.tasks, t.pc = .finished) ∧
    (demoPassed.tasks.map Task.entry).Perm demoFiles ∧ demoPassed.wg = 0 ∧
    demoPassed.mu = false ∧ demoPassed.appended.Perm demoFiles ∧
    demoPassed.intermediate = [] ++ emitted mapFunc demoPassed.appended :=
  ⟨by decide, by decide,
    barrier_before_group (NewMaster demoFiles mapFunc reduceFunc) demoMapMoves demoPassed
      demoGrouped .group (by decide) (Or.inl rfl) (by decide)⟩

/-! ## Task functions that may fault: what every reachable state satisfies -/

end MapReduce
